import Mathlib

/-
Verification development for the `sdutil` filesystem-inventory engine
(`sdutil/fstree.py`).

Modelling conventions:

* Filesystem paths are canonical absolute paths, represented as their list
  of segments (`FsPath := List String`); the path `/` is `[]`, and
  `/R/A` is `["R", "A"]`.  `os.path.dirname` on a canonical absolute path
  drops the last segment (`dirname "/" = "/"` corresponds to
  `dropLast [] = []`), and `os.path.join root rel` appends segments.
* The filesystem itself is modelled as a tree of entries (`FSEntry`).
  A file entry carries the result of `os.path.getsize`: `some n` when the
  file can be statted, `none` when statting raises `FileNotFoundError`
  (vanished file or dangling symlink).  Because Lean 4.14 does not support
  structural recursion through `List`-nested inductives, the child list of
  a directory entry is the isomorphic mutual inductive `FSEntryList`.
* Python exceptions are modelled with `Except`.
* Machine integers do not occur: every quantity in the source is an
  unbounded Python `int`, modelled as `Int` (or `Nat` where the source
  value is a count that is nonnegative by construction).
-/

/-! ### Paths -/

/-- Canonical absolute paths, as segment lists (see the header comment). -/
abbrev FsPath := List String

/-- Model of `os.path.dirname` on canonical absolute paths: drop the final
segment.  The root `/` (i.e. `[]`) is a fixpoint, exactly as
`os.path.dirname("/") == "/"`. -/
def dirname (p : FsPath) : FsPath := p.dropLast

/-! ### SizeSpec (`size_spec`, `fstree.py` lines 14-37) -/

/-- Error raised by `size_spec` (`raise ValueError(f'Invalid size specification: ...')`). -/
inductive SizeSpecError where
  | invalidSizeSpec
deriving DecidableEq, Repr

/-- Lookup in the `SIZE_UNITS` dictionary for a matched (upper-cased) unit
letter.  The regular expression guarantees the argument is one of
`B`, `K`, `M`, `G`; the value on any other character is irrelevant. -/
def sizeUnitFactor (c : Char) : Nat :=
  if c = 'B' then 2 ^ 0
  else if c = 'K' then 2 ^ 10
  else if c = 'M' then 2 ^ 20
  else if c = 'G' then 2 ^ 30
  else 0

/-- Model of Python `int()` on a nonempty string of decimal digits. -/
def digitsVal (ds : List Char) : Nat :=
  ds.foldl (fun a c => a * 10 + (c.toNat - 48)) 0

/-- Model of matching `SIZE_PATTERN = ^(?P<size>\d+)(?P<unit>[BKMG])?$` with
`re.IGNORECASE` against the characters of a string.  Returns the `size`
digit group and the optional `unit` group on success.  Since a unit letter
is never a digit, the greedy `\d+` group is exactly the maximal leading
digit run, and the character class `[BKMG]` under `IGNORECASE` is the
eight letters listed below (the model is ASCII: the exotic Unicode digits
and case foldings Python would additionally accept play no role here).
In a pattern without `re.MULTILINE`, `$` matches at the end of the string
or just before one newline at the very end of the string, so the source
accepts one optional trailing `'\n'` after the matched groups
(`size_spec("100\n") == 100`); the model strips that newline from the
remainder before requiring it to be empty or a single unit letter. -/
def matchSizePattern (cs : List Char) : Option (List Char × Option Char) :=
  let ds := cs.takeWhile Char.isDigit
  let rest := cs.dropWhile Char.isDigit
  let rest' := if rest.getLast? = some '\n' then rest.dropLast else rest
  if ds = [] then none
  else
    match rest' with
    | [] => some (ds, none)
    | [u] =>
      if u ∈ ['B', 'K', 'M', 'G', 'b', 'k', 'm', 'g'] then
        some (ds, some u)
      else none
    | _ :: _ :: _ => none

/-- Model of `size_spec` (`fstree.py` lines 31-37).  The Python parameter has
type `int | str`, modelled as a sum; an `int` is returned unchanged, a
matching string yields `int(size) * factor`, and anything else raises
`ValueError`. -/
def size_spec (spec : Int ⊕ String) : Except SizeSpecError Int :=
  match spec with
  | .inl n => .ok n
  | .inr s =>
    match matchSizePattern s.data with
    | some (ds, u?) =>
      .ok ((digitsVal ds : Int) *
        (match u? with
         | some u => (sizeUnitFactor u.toUpper : Int)
         | none => 1))
    | none => .error .invalidSizeSpec

/-- Declarative form of the spec's sentence "a string matching
`^(\d+)([BKMG])?$` case-insensitively": the string splits into a nonempty
run of digits, followed by at most one unit letter drawn from `BKMG` in
either case, followed by at most one trailing newline (which Python's `$`
accepts in a non-MULTILINE pattern).  Used to state claim C6 independently
of the parser. -/
def SizeSpecMatch (s : String) (ds : List Char) (u? : Option Char) : Prop :=
  (s.data = ds ++ u?.toList ∨ s.data = ds ++ u?.toList ++ ['\n']) ∧ ds ≠ [] ∧
    (∀ c ∈ ds, c.isDigit) ∧
    (∀ u, u? = some u → u ∈ ['B', 'K', 'M', 'G', 'b', 'k', 'm', 'g'])

/-- Multiplier the spec assigns to an optional unit letter: 1 for `B` or no
unit, `2^10` for `K`, `2^20` for `M`, `2^30` for `G`. -/
def specMultiplier (u? : Option Char) : Nat :=
  match u? with
  | none => 1
  | some u => sizeUnitFactor u.toUpper

/-! ### Filesystem model -/

mutual
/-- One filesystem entry, as seen by `os.walk` / `os.path.getsize`.  A file
carries the result of statting it: `some n` when `os.path.getsize` returns
`n`, `none` when it raises `FileNotFoundError` (missing or vanished file,
dangling symlink target) — the one and only exception `FileNode.size`
catches.  A stat failing with a different `OSError` (e.g.
`PermissionError`, `ELOOP`) is outside this type: that outcome makes
`FileNode.size` itself raise, and is modelled separately by
`OsStatResult` / `fileNodeSizeOf` below for claim C4; the walk/render
development assumes a tree whose files stat without such errors. -/
inductive FSEntry where
  | file (name : String) (sz : Option Nat)
  | dir (name : String) (children : FSEntryList)
/-- Child list of a directory entry (mutual substitute for `List FSEntry`). -/
inductive FSEntryList where
  | nil
  | cons (e : FSEntry) (rest : FSEntryList)
end

/-- Name of an entry (the final path segment). -/
def FSEntry.name : FSEntry → String
  | .file n _ => n
  | .dir n _ => n

/-- View an `FSEntryList` as a `List FSEntry` (the entries themselves are
not recursed into, so this is an ordinary definition). -/
def FSEntryList.toList : FSEntryList → List FSEntry
  | .nil => []
  | .cons e rest => e :: rest.toList

/-- Build an `FSEntryList` from a `List FSEntry` (for concrete examples). -/
def FSEntryList.ofList : List FSEntry → FSEntryList
  | [] => .nil
  | e :: rest => .cons e (FSEntryList.ofList rest)

/-- Names of the subdirectory entries of a directory listing, in order
(the `dir_names` component of an `os.walk` triple). -/
def dirNames (l : FSEntryList) : List String :=
  l.toList.filterMap fun e =>
    match e with
    | .dir n _ => some n
    | .file _ _ => none

/-- Names of the file entries of a directory listing, in order
(the `file_names` component of an `os.walk` triple). -/
def fileNames (l : FSEntryList) : List String :=
  l.toList.filterMap fun e =>
    match e with
    | .file n _ => some n
    | .dir _ _ => none

/-- Resolve a relative segment list against an entry, following child names.
Used to model what an absolute path refers to at stat time. -/
def FSEntry.resolve : FSEntry → List String → Option FSEntry
  | e, [] => some e
  | .file _ _, _ :: _ => none
  | .dir _ cs, seg :: rest =>
    match cs.toList.find? (fun c => c.name = seg) with
    | none => none
    | some c => c.resolve rest

/-- The filesystem state a `FilesystemTree` is built over and statted
against: the canonicalized root path together with what that path currently
resolves to (`none` when it does not exist). -/
structure Filesystem where
  root_path : FsPath
  root : Option FSEntry

/-- Model of `os.path.getsize p` for a path below the root: `some n` when
the path resolves to a statable file, `none` when the stat raises
`FileNotFoundError` — the only failure this type represents (see the
`FSEntry` comment; other `OSError`s are modelled by `OsStatResult`).
Resolving to a directory yields `some 0`; paths not below the modelled
root are treated as nonexistent (only paths below the root are ever
statted by the program). -/
def getsize (fs : Filesystem) (p : FsPath) : Option Nat :=
  if fs.root_path <+: p then
    match fs.root with
    | none => none
    | some e =>
      match e.resolve (p.drop fs.root_path.length) with
      | some (.file _ sz) => sz
      | some (.dir _ _) => some 0
      | none => none
  else none

/-! ### Node model (`FilesystemNode`, `FileNode`, `DirectoryNode`) -/

/-- Model of `FileNode` (`fstree.py` lines 75-83): path and depth; the size
is a property computed by statting the path, not a stored field. -/
structure FileNode where
  path : FsPath
  depth : Nat
deriving DecidableEq, Repr

/-- Model of `FileNode.size` (`fstree.py` lines 77-83): `os.path.getsize`,
with `FileNotFoundError` absorbed to `0`. -/
def FileNode.size (fs : Filesystem) (f : FileNode) : Nat :=
  (getsize fs f.path).getD 0

mutual
/-- Model of `DirectoryNode` (`fstree.py` lines 86-93): path, depth, owned
subdirectory nodes and file nodes. -/
inductive DirectoryNode where
  | mk (path : FsPath) (depth : Nat) (subdirectories : DirNodeList) (files : List FileNode)
/-- Subdirectory list of a `DirectoryNode` (mutual substitute for
`List DirectoryNode`). -/
inductive DirNodeList where
  | nil
  | cons (d : DirectoryNode) (rest : DirNodeList)
end

/-- Path of a directory node. -/
def DirectoryNode.path : DirectoryNode → FsPath
  | .mk p _ _ _ => p

/-- Depth of a directory node. -/
def DirectoryNode.depth : DirectoryNode → Nat
  | .mk _ d _ _ => d

/-- File children of a directory node. -/
def DirectoryNode.files : DirectoryNode → List FileNode
  | .mk _ _ _ fl => fl

/-- Subdirectory children of a directory node. -/
def DirectoryNode.subdirectories : DirectoryNode → DirNodeList
  | .mk _ _ ds _ => ds

/-- View a `DirNodeList` as a `List DirectoryNode`. -/
def DirNodeList.toList : DirNodeList → List DirectoryNode
  | .nil => []
  | .cons d rest => d :: rest.toList

mutual
/-- Model of `DirectoryNode.size` (`fstree.py` lines 91-93): the sum of the
file children's sizes plus the sum of the subdirectory children's sizes,
computed on demand against the current filesystem state. -/
def DirectoryNode.size (fs : Filesystem) : DirectoryNode → Nat
  | .mk _ _ subs fl => (fl.map (FileNode.size fs)).sum + subs.sizeSum fs
/-- Sum of the sizes of a list of directory nodes. -/
def DirNodeList.sizeSum (fs : Filesystem) : DirNodeList → Nat
  | .nil => 0
  | .cons d rest => DirectoryNode.size fs d + rest.sizeSum fs
end

/-! ### Include-path matching (`should_include_path`, `fstree.py` lines 117-124) -/

/-- Model of the ancestor-walk loop of `should_include_path`:

    while path != self.root_path:
        path = os.path.dirname(path)
        if path in self.include_paths:
            return True
    return False

with an explicit iteration budget.  `some b` means the loop finishes with
result `b` within `fuel` iterations; `none` means it is still running, so
divergence of the Python loop is `∀ fuel, includeLoopFuel … = none`. -/
def includeLoopFuel (S : List FsPath) (R : FsPath) : FsPath → Nat → Option Bool
  | p, 0 => if p = R then some false else none
  | p, fuel + 1 =>
    if p = R then some false
    else if dirname p ∈ S then some true
    else includeLoopFuel S R (dirname p) fuel

/-- Model of `should_include_path` with an iteration budget for the
ancestor-walk loop.  The early return
`if not self.include_paths or path in self.include_paths: return True`
costs no iterations. -/
def shouldIncludePathFuel (S : List FsPath) (R p : FsPath) (fuel : Nat) : Option Bool :=
  if S = [] ∨ p ∈ S then some true else includeLoopFuel S R p fuel

/-- Total version of `should_include_path`, adequate for every path the
traversal actually passes in: for a path below the root, `p.length`
iterations always suffice (proved in `shouldIncludePathFuel_of_under`), so
the default value of `getD` is never taken there. -/
def should_include_path (S : List FsPath) (R p : FsPath) : Bool :=
  (shouldIncludePathFuel S R p p.length).getD false

/-! ### Include-path expansion (`expand_include_paths`, `fstree.py` lines 109-115) -/

/-- Model of `expand_include_paths`.  `glob` is the oracle for
`glob.glob(pattern, root_dir=root, recursive=True)`: the list of matched
paths relative to the root, each a nonempty segment list (the stdlib never
returns an empty match).  Each match is joined onto the root.  The Python
`set(...)` only deduplicates; membership, which is all `should_include_path`
uses, is unaffected, so the flattened list stands in for the set. -/
def expand_include_paths (glob : String → List (List String)) (R : FsPath)
    (include_paths? : Option (List String)) : List FsPath :=
  match include_paths? with
  | none => []
  | some pats => (pats.map (fun pat => (glob pat).map (fun m => R ++ m))).flatten

/-! ### Tree construction (`FilesystemTree.__init__` / `populate_tree`, `fstree.py` lines 96-142) -/

/-- Errors `FilesystemTree` construction can raise.  `notADirectory` and
`emptyIncludeSet` are the two explicit `ValueError`s of `__init__`;
`attributeError` is the `AttributeError` raised inside `populate_tree`
when `self.get_node(dir_path)` returned `None` (no node was created for
`dir_path`) and `parent.data.depth` is then evaluated because some child
of `dir_path` passes `should_include_path`. -/
inductive BuildError where
  | notADirectory
  | emptyIncludeSet
  | attributeError
deriving DecidableEq, Repr

/-- Whether the `os.walk` frame at `framePath` raises `AttributeError`:
`hasNode` says whether a tree node was created for `framePath`
(`self.get_node(dir_path)` is not `None`); if not, the first child entry
that passes `should_include_path` dereferences `parent.data` and raises.
Directory children are scanned before file children, but the raised error
is the same, so only existence matters. -/
def frameRaises (S : List FsPath) (R : FsPath) (hasNode : Bool) (framePath : FsPath)
    (children : FSEntryList) : Bool :=
  !hasNode &&
    (dirNames children ++ fileNames children).any
      (fun n => should_include_path S R (framePath ++ [n]))

/-- The `FileNode`s created by the frame at `framePath` (one per file child
passing `should_include_path`, at depth `parent.data.depth + 1`, i.e.
`fileDepth`), in listing order. -/
def frameFiles (S : List FsPath) (R : FsPath) (framePath : FsPath) (fileDepth : Nat)
    (children : FSEntryList) : List FileNode :=
  (fileNames children).filterMap fun n =>
    if should_include_path S R (framePath ++ [n]) then
      some ⟨framePath ++ [n], fileDepth⟩
    else none

/-- Build a `DirNodeList` from a `List DirectoryNode`. -/
def DirNodeList.ofList : List DirectoryNode → DirNodeList
  | [] => .nil
  | d :: rest => .cons d (DirNodeList.ofList rest)

/-- The recursive part of `populate_tree`, i.e. the `os.walk` traversal in
its top-down (preorder) frame order, scanning the children `l` of the
directory at `p` whose created node (if any) sits at depth `depth`.
Each directory child `name` is handled exactly as the walk does:

* its inclusion is decided at the parent's frame (`inc`), which is also
  whether a node exists for it when its own frame is reached;
* its own frame is processed next (`frameRaises` for the `AttributeError`
  case, `frameFiles` for its file children), then its subtree, then the
  remaining siblings — `os.walk`'s default top-down order, which the walk
  performs for every directory, included or not (nothing is ever removed
  from `dir_names`).

Returns the directory nodes created for the included children of `p`, in
creation order, together with the preorder trace of every directory the
walk visited. -/
def walkSubdirs (S : List FsPath) (R : FsPath) (p : FsPath) (depth : Nat) :
    FSEntryList → Except BuildError (List DirectoryNode × List FsPath)
  | .nil => .ok ([], [])
  | .cons (.file _ _) rest => walkSubdirs S R p depth rest
  | .cons (.dir name cs) rest =>
    let childPath := p ++ [name]
    let inc := should_include_path S R childPath
    if frameRaises S R inc childPath cs then .error .attributeError
    else
      match walkSubdirs S R childPath (depth + 1) cs with
      | .error e => .error e
      | .ok (grandNodes, visitedC) =>
        match walkSubdirs S R p depth rest with
        | .error e => .error e
        | .ok (nodes, visitedR) =>
          .ok ((if inc then
                  [DirectoryNode.mk childPath (depth + 1) (DirNodeList.ofList grandNodes)
                    (frameFiles S R childPath (depth + 2) cs)]
                else []) ++ nodes,
               (childPath :: visitedC) ++ visitedR)

/-- Model of `populate_tree` (`fstree.py` lines 126-142) over the children
of the (already validated) root directory.  The root node always exists, so
the root frame cannot raise.  Returns the fully populated root
`DirectoryNode` and the preorder trace of directories visited by
`os.walk`. -/
def populate_tree (S : List FsPath) (R : FsPath) (rootChildren : FSEntryList) :
    Except BuildError (DirectoryNode × List FsPath) :=
  match walkSubdirs S R R 0 rootChildren with
  | .error e => .error e
  | .ok (subNodes, visited) =>
    .ok (DirectoryNode.mk R 0 (DirNodeList.ofList subNodes) (frameFiles S R R 1 rootChildren),
         R :: visited)

/-- Model of the `FilesystemTree` state after a successful `__init__`. -/
structure FilesystemTree where
  root_path : FsPath
  include_paths : List FsPath
  rootNode : DirectoryNode

/-- Model of `FilesystemTree.__init__` (`fstree.py` lines 98-107).
`root?` is what the canonicalized root path resolves to (`none`: the path
does not exist).  In source order: root validation (`ValueError` rendered
as `notADirectory`), the explicit-empty-include-set check (`ValueError`
rendered as `emptyIncludeSet`), include-path expansion, then
`populate_tree`.  On success the walk's preorder directory trace is
returned alongside the tree. -/
def FilesystemTree.init (root? : Option FSEntry) (root_path : FsPath)
    (include_paths? : Option (List String)) (glob : String → List (List String)) :
    Except BuildError (FilesystemTree × List FsPath) :=
  match root? with
  | none => .error .notADirectory
  | some (.file _ _) => .error .notADirectory
  | some (.dir _ children) =>
    match include_paths? with
    | some [] => .error .emptyIncludeSet
    | _ =>
      let S := expand_include_paths glob root_path include_paths?
      match populate_tree S root_path children with
      | .error e => .error e
      | .ok (rootNode, visited) => .ok (⟨root_path, S, rootNode⟩, visited)

/-! ### Rendering (`FilesystemTree.show`, `fstree.py` lines 144-156, over `treelib.Tree.show`) -/

/-- Insert into a descending-sorted list, after any element of equal key:
the placement Python's stable `list.sort(key=key, reverse=True)` gives a
later sibling relative to earlier ones. -/
def sortKeyInsert {α : Type} (key : α → Nat) (a : α) : List α → List α
  | [] => [a]
  | b :: bs => if key a > key b then a :: b :: bs else b :: sortKeyInsert key a bs

/-- Stable descending sort by `key`, extensionally the
`children.sort(key=key, reverse=True)` that `treelib` performs with the
`key`/`reverse` arguments `show` passes (`lambda n: n.data.size`,
`reverse=True`). -/
def sortDesc {α : Type} (key : α → Nat) (l : List α) : List α :=
  l.foldl (fun acc a => sortKeyInsert key a acc) []

/-- The combined filter `show` installs (`fstree.py` lines 149-154) applied
to a node of stored depth `ndepth` and computed size `nsize`: the default
user filter (always true) AND the depth filter (`n.data.depth <= depth`
when `depth > 0`, otherwise unrestricted) AND the size filter
(`n.data.size >= min_size_spec`). -/
def showFilter (depth minSpec : Int) (ndepth nsize : Nat) : Bool :=
  (if depth > 0 then ((ndepth : Int) ≤ depth) else true) && ((nsize : Int) ≥ minSpec)

/-- An emitted line, as the data it is printed from: the node's path, its
stored depth and its computed size.  The actual printed text
(`FilesystemNode.stat`) is a pure function of this triple: the label is the
full path when `depth == 0` and the basename otherwise, and the size text
is `format_file_size` of the size. -/
abbrev ShowLine := FsPath × Nat × Nat

mutual
/-- Lines emitted below an already-emitted directory node that passed the
filter, per `treelib.Tree.__get_iter`: the children that pass the filter
(in creation order: subdirectories then files), stably sorted by size
descending, each contributing its own line followed, for directories, by
its subtree's lines.  Sorting the child blocks after rendering each child
is extensionally the same as `treelib`'s sorting the children before
rendering, since each block is a function of its own child only. -/
def DirectoryNode.subtreeLines (fs : Filesystem) (depth minSpec : Int) :
    DirectoryNode → List ShowLine
  | .mk _ _ subs fl =>
    ((sortDesc (fun b => b.1)
      (subs.childBlocks fs depth minSpec ++ fl.filterMap (fun f =>
        if showFilter depth minSpec f.depth (f.size fs) then
          some (f.size fs, [(f.path, f.depth, f.size fs)])
        else none))).map (fun b => b.2)).flatten
/-- The renderable blocks of a list of sibling directory nodes: for each
node passing the filter, its size (the sort key) paired with its line and
the lines of its visible subtree.  A node failing the filter contributes
nothing — its subtree is never visited. -/
def DirNodeList.childBlocks (fs : Filesystem) (depth minSpec : Int) :
    DirNodeList → List (Nat × List ShowLine)
  | .nil => []
  | .cons d rest =>
    (if showFilter depth minSpec d.depth (d.size fs) then
      [(d.size fs, (d.path, d.depth, d.size fs) :: d.subtreeLines fs depth minSpec)]
     else []) ++ rest.childBlocks fs depth minSpec
end

/-- Resolution of `show`'s `min_size` argument, exactly as the source does
it: `size_spec(min_size) if min_size else 0`, restricted here to the
numeric case where `size_spec` is the identity and Python falsiness means
`None` or `0`. -/
def min_size_spec (min_size? : Option Int) : Int :=
  match min_size? with
  | none => 0
  | some m => if m = 0 then 0 else m

/-- Model of `FilesystemTree.show` itself: `treelib` always prints the top
(root) node's line, then, if the root passes the installed filter, the
visible subtree. -/
def FilesystemTree.show (t : FilesystemTree) (fs : Filesystem) (depth : Int)
    (min_size? : Option Int) : List ShowLine :=
  (t.rootNode.path, t.rootNode.depth, t.rootNode.size fs) ::
    (if showFilter depth (min_size_spec min_size?) t.rootNode.depth (t.rootNode.size fs) then
      t.rootNode.subtreeLines fs depth (min_size_spec min_size?)
     else [])

/-! ### Observation helpers (decidable views of build results) -/

/-- The error of a failed build, if any. -/
def buildErr (x : Except BuildError (FilesystemTree × List FsPath)) : Option BuildError :=
  match x with
  | .error e => some e
  | .ok _ => none

/-- Whether a build succeeded. -/
def buildOk (x : Except BuildError (FilesystemTree × List FsPath)) : Bool :=
  match x with
  | .error _ => false
  | .ok _ => true

/-- The `os.walk` preorder directory trace of a successful build. -/
def buildTrace (x : Except BuildError (FilesystemTree × List FsPath)) : List FsPath :=
  match x with
  | .error _ => []
  | .ok (_, tr) => tr

/-- The resolved include-path set of a successful build. -/
def buildIncludePaths (x : Except BuildError (FilesystemTree × List FsPath)) : List FsPath :=
  match x with
  | .error _ => []
  | .ok (t, _) => t.include_paths

mutual
/-- Paths of every node of a built subtree: the directory itself, then its
subdirectory subtrees, then its file children. -/
def DirectoryNode.nodePaths : DirectoryNode → List FsPath
  | .mk p _ subs fl => p :: (subs.nodePathsFlat ++ fl.map FileNode.path)
/-- Paths of every node of a list of subtrees. -/
def DirNodeList.nodePathsFlat : DirNodeList → List FsPath
  | .nil => []
  | .cons d rest => d.nodePaths ++ rest.nodePathsFlat
end

/-- Node paths of a successful build's tree. -/
def buildNodePaths (x : Except BuildError (FilesystemTree × List FsPath)) : List FsPath :=
  match x with
  | .error _ => []
  | .ok (t, _) => t.rootNode.nodePaths

/-- Rendering of a successful build's tree (empty for a failed build). -/
def buildShow (x : Except BuildError (FilesystemTree × List FsPath)) (fs : Filesystem)
    (depth : Int) (min_size? : Option Int) : List ShowLine :=
  match x with
  | .error _ => []
  | .ok (t, _) => t.show fs depth min_size?

/-- Full paths of all entries (directories and files) strictly below a
directory at `p` whose listing is the given list, in listing order with
each directory followed by its subtree. -/
def FSEntryList.pathsUnder (p : FsPath) : FSEntryList → List FsPath
  | .nil => []
  | .cons (.file n _) rest => (p ++ [n]) :: rest.pathsUnder p
  | .cons (.dir n cs) rest => (p ++ [n]) :: (cs.pathsUnder (p ++ [n]) ++ rest.pathsUnder p)

/-- Full paths of all directories strictly below a directory at `p` whose
listing is the given list, in the preorder `os.walk` visits them. -/
def FSEntryList.dirPathsUnder (p : FsPath) : FSEntryList → List FsPath
  | .nil => []
  | .cons (.file _ _) rest => rest.dirPathsUnder p
  | .cons (.dir n cs) rest => (p ++ [n]) :: (cs.dirPathsUnder (p ++ [n]) ++ rest.dirPathsUnder p)

mutual
/-- Paths of the file nodes of a built subtree. -/
def DirectoryNode.filePaths : DirectoryNode → List FsPath
  | .mk _ _ subs fl => subs.filePathsFlat ++ fl.map FileNode.path
/-- Paths of the file nodes of a list of subtrees. -/
def DirNodeList.filePathsFlat : DirNodeList → List FsPath
  | .nil => []
  | .cons d rest => d.filePaths ++ rest.filePathsFlat
end

/-! ### Supporting lemmas -/

deriving instance DecidableEq for Except

theorem takeWhile_append_all {α : Type} {p : α → Bool} :
    ∀ (l₁ l₂ : List α), (∀ c ∈ l₁, p c) → (l₁ ++ l₂).takeWhile p = l₁ ++ l₂.takeWhile p := by
  intro l₁ l₂ h
  induction l₁ with
  | nil => simp
  | cons a l ih =>
    have ha : p a := h a (List.mem_cons_self a l)
    simp only [List.cons_append, List.takeWhile_cons, ha, ite_true]
    rw [ih (fun c hc => h c (List.mem_cons_of_mem a hc))]

theorem dropWhile_append_all {α : Type} {p : α → Bool} :
    ∀ (l₁ l₂ : List α), (∀ c ∈ l₁, p c) → (l₁ ++ l₂).dropWhile p = l₂.dropWhile p := by
  intro l₁ l₂ h
  induction l₁ with
  | nil => simp
  | cons a l ih =>
    have ha : p a := h a (List.mem_cons_self a l)
    simp only [List.cons_append, List.dropWhile_cons, ha, ite_true]
    exact ih (fun c hc => h c (List.mem_cons_of_mem a hc))

theorem unit_char_not_digit {u : Char} (hu : u ∈ ['B', 'K', 'M', 'G', 'b', 'k', 'm', 'g']) :
    u.isDigit = false := by
  fin_cases hu <;> decide

theorem unit_char_ne_newline {u : Char} (hu : u ∈ ['B', 'K', 'M', 'G', 'b', 'k', 'm', 'g']) :
    u ≠ '\n' := by
  fin_cases hu <;> decide

/-- Inversion of a successful `SIZE_PATTERN` match. -/
theorem matchSizePattern_inv {cs : List Char} {ds : List Char} {u? : Option Char}
    (h : matchSizePattern cs = some (ds, u?)) :
    (cs = ds ++ u?.toList ∨ cs = ds ++ u?.toList ++ ['\n']) ∧ ds ≠ [] ∧
      (∀ c ∈ ds, c.isDigit) ∧
      (∀ u, u? = some u → u ∈ ['B', 'K', 'M', 'G', 'b', 'k', 'm', 'g']) := by
  unfold matchSizePattern at h
  by_cases hds : cs.takeWhile Char.isDigit = []
  · simp [hds] at h
  · simp only [hds, if_false] at h
    have hsplit : cs = cs.takeWhile Char.isDigit ++ cs.dropWhile Char.isDigit :=
      (List.takeWhile_append_dropWhile Char.isDigit cs).symm
    by_cases hnl : (cs.dropWhile Char.isDigit).getLast? = some '\n'
    · rw [if_pos hnl] at h
      have hrest : (cs.dropWhile Char.isDigit).dropLast ++ ['\n'] =
          cs.dropWhile Char.isDigit :=
        List.dropLast_append_getLast? '\n' hnl
      rcases hshape : (cs.dropWhile Char.isDigit).dropLast with _ | ⟨u, _ | ⟨v, rest2⟩⟩
      · rw [hshape] at h
        simp only [Option.some.injEq, Prod.mk.injEq] at h
        obtain ⟨h1, h2⟩ := h
        subst h1
        subst h2
        refine ⟨Or.inr ?_, hds, fun c hc => List.mem_takeWhile_imp hc, by simp⟩
        conv_lhs => rw [hsplit, ← hrest, hshape]
        simp
      · rw [hshape] at h
        by_cases hu : u ∈ ['B', 'K', 'M', 'G', 'b', 'k', 'm', 'g']
        · simp only [hu, if_true, Option.some.injEq, Prod.mk.injEq] at h
          obtain ⟨h1, h2⟩ := h
          subst h1
          subst h2
          refine ⟨Or.inr ?_, hds, fun c hc => List.mem_takeWhile_imp hc, ?_⟩
          · conv_lhs => rw [hsplit, ← hrest, hshape]
            simp
          · intro w hw
            cases hw
            exact hu
        · simp [hu] at h
      · rw [hshape] at h
        simp at h
    · rw [if_neg hnl] at h
      rcases hshape : cs.dropWhile Char.isDigit with _ | ⟨u, _ | ⟨v, rest2⟩⟩
      · rw [hshape] at h
        simp only [Option.some.injEq, Prod.mk.injEq] at h
        obtain ⟨h1, h2⟩ := h
        subst h1
        subst h2
        refine ⟨Or.inl ?_, hds, fun c hc => List.mem_takeWhile_imp hc, by simp⟩
        conv_lhs => rw [hsplit, hshape]
        simp
      · rw [hshape] at h
        by_cases hu : u ∈ ['B', 'K', 'M', 'G', 'b', 'k', 'm', 'g']
        · simp only [hu, if_true, Option.some.injEq, Prod.mk.injEq] at h
          obtain ⟨h1, h2⟩ := h
          subst h1
          subst h2
          refine ⟨Or.inl ?_, hds, fun c hc => List.mem_takeWhile_imp hc, ?_⟩
          · conv_lhs => rw [hsplit, hshape]
            simp
          · intro w hw
            cases hw
            exact hu
        · simp [hu] at h
      · rw [hshape] at h
        simp at h

/-- Direct computation of a successful `SIZE_PATTERN` match. -/
theorem matchSizePattern_eval {s : String} {ds : List Char} {u? : Option Char}
    (h : SizeSpecMatch s ds u?) : matchSizePattern s.data = some (ds, u?) := by
  obtain ⟨hdata, hne, hdig, hunit⟩ := h
  have hnld : Char.isDigit '\n' = false := by decide
  have htw : ds.takeWhile Char.isDigit = ds := by
    have := takeWhile_append_all ds ([] : List Char) hdig
    simpa using this
  have hdw : ds.dropWhile Char.isDigit = [] := by
    have := dropWhile_append_all ds ([] : List Char) hdig
    simpa using this
  unfold matchSizePattern
  cases u? with
  | none =>
    simp only [Option.toList_none, List.append_nil] at hdata
    rcases hdata with hdata | hdata <;> rw [hdata]
    · simp [htw, hdw, hne]
    · rw [takeWhile_append_all ds ['\n'] hdig, dropWhile_append_all ds ['\n'] hdig]
      simp only [List.takeWhile_cons, hnld, Bool.false_eq_true, if_false,
        List.dropWhile_cons, List.append_nil]
      simp [hne]
  | some u =>
    have hu := hunit u rfl
    have hnd := unit_char_not_digit hu
    have hun := unit_char_ne_newline hu
    have hu' : u = 'B' ∨ u = 'K' ∨ u = 'M' ∨ u = 'G' ∨
        u = 'b' ∨ u = 'k' ∨ u = 'm' ∨ u = 'g' := by
      simpa using hu
    simp only [Option.toList_some] at hdata
    rcases hdata with hdata | hdata <;> rw [hdata]
    · rw [takeWhile_append_all ds [u] hdig, dropWhile_append_all ds [u] hdig]
      simp only [List.takeWhile_cons, hnd, Bool.false_eq_true, if_false,
        List.dropWhile_cons, List.append_nil]
      simp [hne, hun, hu']
    · have hassoc : ds ++ [u] ++ ['\n'] = ds ++ [u, '\n'] := by simp
      rw [hassoc]
      rw [takeWhile_append_all ds [u, '\n'] hdig, dropWhile_append_all ds [u, '\n'] hdig]
      simp only [List.takeWhile_cons, hnd, Bool.false_eq_true, if_false,
        List.dropWhile_cons, List.append_nil]
      have hgl : [u, '\n'].getLast? = some '\n' := rfl
      have hdl : [u, '\n'].dropLast = [u] := rfl
      simp [hne, hgl, hdl, hu']

/-! ### Claim C6 — `size_spec` -/

/-- Claim C6: `size_spec` returns any integer input unchanged; on a string
input it returns `digits * multiplier` exactly when the string matches
`^(\d+)([BKMG])?$` case-insensitively (multiplier 1 for `B` or no unit,
`2^10` for `K`, `2^20` for `M`, `2^30` for `G`), so that
`parse "1G" = 2^30`, `parse "512M" = 2^29`, `parse "100" = 100`; and it
fails with `InvalidSizeSpec` on every non-matching string, including
`"1X"`, `"-5"`, `"5.5"` and `""`.  Matching here carries Python's `$`
semantics: one trailing newline after the groups is accepted, so
`parse "100\n" = 100` and `parse "1G\n" = 2^30`, while a newline anywhere
else, or more than one, still fails. -/
theorem size_spec_correct :
    (∀ n : Int, size_spec (.inl n) = .ok n) ∧
    (∀ (s : String) (ds : List Char) (u? : Option Char), SizeSpecMatch s ds u? →
      size_spec (.inr s) = .ok ((digitsVal ds : Int) * (specMultiplier u? : Int))) ∧
    (∀ s : String, (¬ ∃ ds u?, SizeSpecMatch s ds u?) →
      size_spec (.inr s) = .error .invalidSizeSpec) ∧
    size_spec (.inr "1G") = .ok (2 ^ 30) ∧
    size_spec (.inr "512M") = .ok (2 ^ 29) ∧
    size_spec (.inr "100") = .ok 100 ∧
    size_spec (.inr "100\n") = .ok 100 ∧
    size_spec (.inr "1G\n") = .ok (2 ^ 30) ∧
    size_spec (.inr "1X") = .error .invalidSizeSpec ∧
    size_spec (.inr "-5") = .error .invalidSizeSpec ∧
    size_spec (.inr "5.5") = .error .invalidSizeSpec ∧
    size_spec (.inr "") = .error .invalidSizeSpec ∧
    size_spec (.inr "100\n\n") = .error .invalidSizeSpec ∧
    size_spec (.inr "1\nG") = .error .invalidSizeSpec := by
  refine ⟨fun n => rfl, ?_, ?_, by decide, by decide, by decide, by decide, by decide,
    by decide, by decide, by decide, by decide, by decide, by decide⟩
  · intro s ds u? h
    simp only [size_spec, matchSizePattern_eval h]
    cases u? with
    | none => simp [specMultiplier]
    | some u => simp [specMultiplier]
  · intro s hn
    cases h : matchSizePattern s.data with
    | none => simp [size_spec, h]
    | some pair =>
      exfalso
      obtain ⟨ds, u?⟩ := pair
      obtain ⟨h1, h2, h3, h4⟩ := matchSizePattern_inv h
      exact hn ⟨ds, u?, h1, h2, h3, h4⟩

/-- Witness for C6 at concrete inputs: `"512M"` matches the pattern with
digit group `['5','1','2']` and unit `M`, and the theorem computes
`512 * 2^20 = 2^29`. -/
theorem size_spec_correct_witness :
    size_spec (.inl (-7)) = .ok (-7) ∧
    size_spec (.inr "512M") = .ok ((digitsVal ['5', '1', '2'] : Int) *
      (specMultiplier (some 'M') : Int)) ∧
    size_spec (.inr "512M\n") = .ok ((digitsVal ['5', '1', '2'] : Int) *
      (specMultiplier (some 'M') : Int)) ∧
    size_spec (.inr "1X") = .error .invalidSizeSpec :=
  ⟨size_spec_correct.1 (-7),
   size_spec_correct.2.1 "512M" ['5', '1', '2'] (some 'M')
     ⟨by decide, by decide, by decide, by decide⟩,
   size_spec_correct.2.1 "512M\n" ['5', '1', '2'] (some 'M')
     ⟨by decide, by decide, by decide, by decide⟩,
   size_spec_correct.2.2.2.2.2.2.2.2.1⟩

/-! ### Claim C4 — which stat failures `FileNode.size` absorbs -/

/-- Outcome of an `os.path.getsize` call: a size, a `FileNotFoundError`, or
any other `OSError` (`PermissionError` for an unsearchable parent
directory, `ELOOP` for a symlink cycle, ...). -/
inductive OsStatResult where
  | found (n : Nat)
  | fileNotFound
  | otherOsError
deriving DecidableEq, Repr

/-- The exception that escapes `FileNode.size` when the stat fails with an
`OSError` other than `FileNotFoundError`. -/
inductive OsError where
  | osError
deriving DecidableEq, Repr

/-- Exact translation of the body of `FileNode.size` (`fstree.py` lines
77-83) as a function of the stat outcome: the `try` returns the size, the
`except FileNotFoundError` arm absorbs exactly that error to `0`, and any
other exception propagates out of the property. -/
def fileNodeSizeOf : OsStatResult → Except OsError Nat
  | .found n => .ok n
  | .fileNotFound => .ok 0
  | .otherOsError => .error .osError

/-- The stat outcome the main (OSError-free) filesystem model encodes. -/
def statOfOption : Option Nat → OsStatResult
  | some n => .found n
  | none => .fileNotFound

/-- Counterexample to claim C4: the claim includes "unreadable" paths among
those whose size query "returns 0 ... rather than raising or propagating
any error", but the source's `except` clause names only
`FileNotFoundError`, so a stat failing with any other `OSError`
(unreadable path, symlink loop) propagates out of `FileNode.size` instead
of returning 0. -/
theorem fileNode_size_propagates_os_errors :
    fileNodeSizeOf .otherOsError = .error .osError ∧
    fileNodeSizeOf .otherOsError ≠ .ok 0 := by
  exact ⟨rfl, by decide⟩

/-- Claim C4 as amended: a `FileNode` whose stat raises `FileNotFoundError`
(missing or vanished file, dangling symlink target) has size 0 and
contributes 0 to its parent directory's size, a successful stat's size is
returned unchanged, and whenever the size query returns at all its result
is nonnegative; on the OSError-free filesystem states of the main model
the query always returns, agreeing with the total `FileNode.size`.
(Only `FileNotFoundError` is absorbed: any other stat error propagates,
per the counterexample.) -/
theorem fileNode_size_catches_only_fileNotFound :
    fileNodeSizeOf .fileNotFound = .ok 0 ∧
    (∀ n : Nat, fileNodeSizeOf (.found n) = .ok n) ∧
    (∀ (st : OsStatResult) (n : Nat), fileNodeSizeOf st = .ok n → 0 ≤ (n : Int)) ∧
    (∀ (fs : Filesystem) (f : FileNode),
      fileNodeSizeOf (statOfOption (getsize fs f.path)) = .ok (f.size fs)) ∧
    (∀ (fs : Filesystem) (f : FileNode), getsize fs f.path = none → f.size fs = 0) ∧
    (∀ (fs : Filesystem) (p : FsPath) (dep : Nat) (subs : DirNodeList)
      (files₁ files₂ : List FileNode) (f : FileNode), getsize fs f.path = none →
      DirectoryNode.size fs (.mk p dep subs (files₁ ++ f :: files₂)) =
        DirectoryNode.size fs (.mk p dep subs (files₁ ++ files₂))) := by
  refine ⟨rfl, fun n => rfl, ?_, ?_, ?_, ?_⟩
  · intro st n _
    exact Int.ofNat_nonneg n
  · intro fs f
    cases h : getsize fs f.path with
    | none => simp [statOfOption, fileNodeSizeOf, FileNode.size, h]
    | some n => simp [statOfOption, fileNodeSizeOf, FileNode.size, h]
  · intro fs f h
    simp [FileNode.size, h]
  · intro fs p dep subs files₁ files₂ f h
    have hf : FileNode.size fs f = 0 := by simp [FileNode.size, h]
    simp [DirectoryNode.size, hf]

/-- Witness for C4's amended theorem: a filesystem whose root directory
holds one vanished file (its stat raises `FileNotFoundError`) gives that
file node size 0, and gives the root directory, viewed with or without the
vanished file, the same size. -/
theorem fileNode_size_catches_only_fileNotFound_witness :
    FileNode.size ⟨["r"], some (.dir "r" (.ofList [.file "gone" none]))⟩ ⟨["r", "gone"], 1⟩ = 0 ∧
    DirectoryNode.size ⟨["r"], some (.dir "r" (.ofList [.file "gone" none]))⟩
      (.mk ["r"] 0 .nil ([] ++ ⟨["r", "gone"], 1⟩ :: [])) =
      DirectoryNode.size ⟨["r"], some (.dir "r" (.ofList [.file "gone" none]))⟩
        (.mk ["r"] 0 .nil ([] ++ [])) ∧
    0 ≤ ((7 : Nat) : Int) :=
  ⟨fileNode_size_catches_only_fileNotFound.2.2.2.2.1 _ _ (by decide),
   fileNode_size_catches_only_fileNotFound.2.2.2.2.2 _ ["r"] 0 .nil [] [] ⟨["r", "gone"], 1⟩
     (by decide),
   fileNode_size_catches_only_fileNotFound.2.2.1 (.found 7) 7 rfl⟩

/-! ### Lemmas about the ancestor-walk loop -/

/-- A proper extension of the root has its root as a prefix of its dirname. -/
theorem root_prefix_dirname {R p : FsPath} (h : R <+: p) (hne : p ≠ R) : R <+: dirname p := by
  obtain ⟨t, ht⟩ := h
  have htne : t ≠ [] := by
    intro h0
    apply hne
    rw [← ht, h0, List.append_nil]
  refine ⟨t.dropLast, ?_⟩
  rw [dirname, ← ht, List.dropLast_append_of_ne_nil _ htne]

/-- A path below the root that is not the root is nonempty. -/
theorem ne_nil_of_under {R p : FsPath} (h : R <+: p) (hne : p ≠ R) : p ≠ [] := by
  intro h0
  subst h0
  exact hne (List.prefix_nil.mp h).symm

/-- The loop budget `p.length` always suffices for a path below the root:
the loop leaves `some` within that many iterations. -/
theorem includeLoopFuel_total {S : List FsPath} {R : FsPath} :
    ∀ (n : Nat) (p : FsPath), p.length ≤ n → R <+: p →
      ∃ b, includeLoopFuel S R p n = some b := by
  intro n
  induction n with
  | zero =>
    intro p hlen hpre
    have hp : p = [] := List.length_eq_zero.mp (Nat.le_zero.mp hlen)
    subst hp
    have : R = [] := List.prefix_nil.mp hpre
    subst this
    exact ⟨false, by simp [includeLoopFuel]⟩
  | succ n ih =>
    intro p hlen hpre
    by_cases hpR : p = R
    · exact ⟨false, by simp [includeLoopFuel, hpR]⟩
    · have hpne : p ≠ [] := ne_nil_of_under hpre hpR
      by_cases hq : dirname p ∈ S
      · exact ⟨true, by simp [includeLoopFuel, hpR, hq]⟩
      · have hlen' : (dirname p).length ≤ n := by
          rw [dirname, List.length_dropLast]
          omega
        obtain ⟨b, hb⟩ := ih (dirname p) hlen' (root_prefix_dirname hpre hpR)
        exact ⟨b, by simp [includeLoopFuel, hpR, hq, hb]⟩

/-- An ancestor hit: some member of the include set lies strictly between
the path and the root on the path's ancestor chain, the root itself
included (the chain of the loop checks exactly the proper prefixes of `p`
extending `R`, and the membership test fires before the loop's `p = R`
exit test). -/
def AncestorHit (S : List FsPath) (R p : FsPath) : Prop :=
  ∃ a, a ∈ S ∧ a ≠ p ∧ a <+: p ∧ R <+: a

/-- What the loop computes on a path below the root: `true` exactly on an
ancestor hit. -/
theorem includeLoopFuel_true_iff {S : List FsPath} {R : FsPath} :
    ∀ (n : Nat) (p : FsPath), p.length ≤ n → R <+: p →
      (includeLoopFuel S R p n = some true ↔ AncestorHit S R p) := by
  intro n
  induction n with
  | zero =>
    intro p hlen hpre
    have hp : p = [] := List.length_eq_zero.mp (Nat.le_zero.mp hlen)
    subst hp
    have hR : R = [] := List.prefix_nil.mp hpre
    subst hR
    refine iff_of_false (by simp [includeLoopFuel]) ?_
    rintro ⟨a, _, hne, hpre', _⟩
    exact hne (List.prefix_nil.mp hpre')
  | succ n ih =>
    intro p hlen hpre
    by_cases hpR : p = R
    · subst hpR
      refine iff_of_false (by simp [includeLoopFuel]) ?_
      rintro ⟨a, _, hne, hp', hr'⟩
      exact hne (hp'.eq_of_length (Nat.le_antisymm hp'.length_le hr'.length_le))
    · have hpne : p ≠ [] := ne_nil_of_under hpre hpR
      have hqpre : dirname p <+: p := List.dropLast_prefix p
      have hqlen : (dirname p).length < p.length := by
        rw [dirname, List.length_dropLast]
        have : 0 < p.length := List.length_pos.mpr hpne
        omega
      by_cases hq : dirname p ∈ S
      · refine iff_of_true (by simp [includeLoopFuel, hpR, hq]) ?_
        refine ⟨dirname p, hq, ?_, hqpre, root_prefix_dirname hpre hpR⟩
        intro h0
        rw [h0] at hqlen
        exact lt_irrefl _ hqlen
      · have hstep : includeLoopFuel S R p (n + 1) = includeLoopFuel S R (dirname p) n := by
          simp [includeLoopFuel, hpR, hq]
        rw [hstep, ih (dirname p) (by omega) (root_prefix_dirname hpre hpR)]
        constructor
        · rintro ⟨a, haS, hane, hapre, hra⟩
          refine ⟨a, haS, ?_, hapre.trans hqpre, hra⟩
          intro h0
          subst h0
          have := hapre.length_le
          omega
        · rintro ⟨a, haS, hane, hapre, hra⟩
          have halen : a.length ≤ (dirname p).length := by
            have h1 := hapre.length_le
            have h2 : (dirname p).length = p.length - 1 := by
              rw [dirname, List.length_dropLast]
            have : a.length ≠ p.length := fun h0 => hane (hapre.eq_of_length h0)
            omega
          refine ⟨a, haS, ?_, List.prefix_of_prefix_length_le hapre hqpre halen, hra⟩
          intro h0
          subst h0
          exact hq haS

/-- The total wrapper agrees with the budgeted loop on paths below the
root. -/
theorem should_include_path_iff {S : List FsPath} {R p : FsPath} (h : R <+: p) :
    should_include_path S R p = true ↔ (S = [] ∨ p ∈ S ∨ AncestorHit S R p) := by
  unfold should_include_path shouldIncludePathFuel
  by_cases he : S = [] ∨ p ∈ S
  · refine iff_of_true (by simp [he]) ?_
    rcases he with he | he
    · exact Or.inl he
    · exact Or.inr (Or.inl he)
  · obtain ⟨b, hb⟩ := includeLoopFuel_total (S := S) (R := R) p.length p le_rfl h
    rw [if_neg he, hb]
    push_neg at he
    cases b with
    | true =>
      refine iff_of_true rfl ?_
      exact Or.inr (Or.inr ((includeLoopFuel_true_iff p.length p le_rfl h).mp hb))
    | false =>
      simp only [Option.getD_some, Bool.false_eq_true, false_iff]
      rintro (h1 | h2 | h3)
      · exact he.1 h1
      · exact he.2 h2
      · have := (includeLoopFuel_true_iff (S := S) (R := R) p.length p le_rfl h).mpr h3
        rw [hb] at this
        cases this

/-- Membership in the include set means inclusion, with no hypotheses (the
early return in the source). -/
theorem should_include_path_of_mem {S : List FsPath} {R p : FsPath} (h : p ∈ S) :
    should_include_path S R p = true := by
  simp [should_include_path, shouldIncludePathFuel, h]

/-- An empty include set means inclusion, with no hypotheses (the early
return in the source). -/
theorem should_include_path_of_empty {R p : FsPath} :
    should_include_path [] R p = true := by
  simp [should_include_path, shouldIncludePathFuel]

/-- Inclusion of a child path decomposes: the child is included exactly when
it is itself in the include set or its parent is included.  This is the
compositional content of the ancestor walk used by the traversal. -/
theorem should_include_child_iff {S : List FsPath} {R p : FsPath} {n : String}
    (h : R <+: p) :
    should_include_path S R (p ++ [n]) = true ↔
      ((p ++ [n]) ∈ S ∨ should_include_path S R p = true) := by
  have hpn : p <+: p ++ [n] := ⟨[n], rfl⟩
  have hc : R <+: p ++ [n] := h.trans hpn
  rw [should_include_path_iff hc, should_include_path_iff h]
  constructor
  · rintro (h1 | h2 | ⟨a, haS, hane, hapre, hra⟩)
    · exact Or.inr (Or.inl h1)
    · exact Or.inl h2
    · have halen : a.length ≤ p.length := by
        have h1 := hapre.length_le
        have h2 : a.length ≠ (p ++ [n]).length := fun h0 => hane (hapre.eq_of_length h0)
        simp only [List.length_append, List.length_singleton] at h1 h2 ⊢
        omega
      have hap : a <+: p := List.prefix_of_prefix_length_le hapre hpn halen
      by_cases hae : a = p
      · subst hae
        exact Or.inr (Or.inr (Or.inl haS))
      · exact Or.inr (Or.inr (Or.inr ⟨a, haS, hae, hap, hra⟩))
  · rintro (h1 | hS | hp' | ⟨a, haS, hane, hapre, hra⟩)
    · exact Or.inr (Or.inl h1)
    · exact Or.inl hS
    · refine Or.inr (Or.inr ⟨p, hp', ?_, hpn, h⟩)
      intro h0
      have := congrArg List.length h0
      simp at this
    · refine Or.inr (Or.inr ⟨a, haS, ?_, hapre.trans hpn, hra⟩)
      intro h0
      subst h0
      have h1 := hapre.length_le
      simp at h1

/-! ### Claim C5 — the inclusion predicate -/

/-- Claim C5: for a path below the root and a resolved include set (which,
being built by joining the root with nonempty glob matches, never contains
the root itself — hypothesis `R ∉ S`), `should_include_path` holds exactly
when the set is empty, the path is a member, or an ancestor strictly
between the path and the root is a member; and concretely, with the set
resolved from pattern `{"A"}` under root `/R`, `/R/A/B/C` is included and
`/R/D` is excluded, while membership is by whole path segments, so an
included `/R/App` does not include `/R/Application Support`. -/
theorem should_include_path_characterization :
    (∀ (S : List FsPath) (R p : FsPath), R <+: p → R ∉ S →
      (should_include_path S R p = true ↔
        (S = [] ∨ p ∈ S ∨ ∃ a, a ∈ S ∧ a ≠ p ∧ a ≠ R ∧ a <+: p ∧ R <+: a))) ∧
    should_include_path
      (expand_include_paths (fun pat => if pat = "A" then [["A"]] else []) ["R"] (some ["A"]))
      ["R"] ["R", "A", "B", "C"] = true ∧
    should_include_path
      (expand_include_paths (fun pat => if pat = "A" then [["A"]] else []) ["R"] (some ["A"]))
      ["R"] ["R", "D"] = false ∧
    should_include_path [["R", "App"]] ["R"] ["R", "App"] = true ∧
    should_include_path [["R", "App"]] ["R"] ["R", "Application Support"] = false := by
  refine ⟨?_, by decide, by decide, by decide, by decide⟩
  intro S R p hpre hRS
  rw [should_include_path_iff hpre]
  constructor
  · rintro (h1 | h2 | ⟨a, haS, hane, hapre, hra⟩)
    · exact Or.inl h1
    · exact Or.inr (Or.inl h2)
    · refine Or.inr (Or.inr ⟨a, haS, hane, ?_, hapre, hra⟩)
      intro h0
      subst h0
      exact hRS haS
  · rintro (h1 | h2 | ⟨a, haS, hane, _, hapre, hra⟩)
    · exact Or.inl h1
    · exact Or.inr (Or.inl h2)
    · exact Or.inr (Or.inr ⟨a, haS, hane, hapre, hra⟩)

/-- Witness for C5: the characterization applied at root `/R`, include set
`{/R/A}` and path `/R/A/B`, whose strict-between ancestor `/R/A` is a
member, so the path is included. -/
theorem should_include_path_characterization_witness :
    should_include_path [["R", "A"]] ["R"] ["R", "A", "B"] = true :=
  (should_include_path_characterization.1 [["R", "A"]] ["R"] ["R", "A", "B"]
      (by decide) (by decide)).mpr
    (Or.inr (Or.inr ⟨["R", "A"], by decide, by decide, by decide, by decide, by decide⟩))

/-! ### Claim C10 — termination of the ancestor walk -/

/-- The dirname chain only visits prefixes. -/
theorem iterate_dirname_isPre (k : Nat) (p : FsPath) : dirname^[k] p <+: p := by
  induction k with
  | zero => exact List.prefix_refl p
  | succ n ih =>
    rw [Function.iterate_succ_apply']
    exact (List.dropLast_prefix _).trans ih

/-- A path below the root reaches the root by iterating `dirname`. -/
theorem chain_of_under (R : FsPath) (p : FsPath) (h : R <+: p) :
    ∃ k, dirname^[k] p = R := by
  by_cases hpR : p = R
  · exact ⟨0, hpR⟩
  · have h2 := root_prefix_dirname h hpR
    obtain ⟨k, hk⟩ := chain_of_under R (dirname p) h2
    exact ⟨k + 1, by rw [Function.iterate_succ_apply]; exact hk⟩
termination_by p.length
decreasing_by
  rw [dirname, List.length_dropLast]
  have : 0 < p.length := List.length_pos.mpr (ne_nil_of_under h hpR)
  omega

/-- The dirname chain from `p` reaches `R` exactly when `R` is a segment
prefix of `p` (i.e. `p` lies below `R`). -/
theorem chain_reaches_iff {R p : FsPath} : (∃ k, dirname^[k] p = R) ↔ R <+: p := by
  constructor
  · rintro ⟨k, hk⟩
    rw [← hk]
    exact iterate_dirname_isPre k p
  · exact chain_of_under R p

/-- Every member of a resolved include set lies strictly below the root,
provided the glob oracle returns only nonempty relative matches (as
`glob.glob` does). -/
theorem expand_member_under {glob : String → List (List String)} {R : FsPath}
    {pats? : Option (List String)} {s : FsPath}
    (hglob : ∀ pat m, m ∈ glob pat → m ≠ [])
    (hs : s ∈ expand_include_paths glob R pats?) : R <+: s ∧ s ≠ R := by
  cases pats? with
  | none => simp [expand_include_paths] at hs
  | some pats =>
    simp only [expand_include_paths, List.mem_flatten, List.mem_map] at hs
    obtain ⟨l, ⟨pat, _, hl⟩, hsl⟩ := hs
    subst hl
    obtain ⟨m, hm, hms⟩ := List.mem_map.mp hsl
    subst hms
    refine ⟨⟨m, rfl⟩, ?_⟩
    intro h0
    have := congrArg List.length h0
    simp only [List.length_append] at this
    exact hglob pat m hm (List.length_eq_zero.mp (by omega))

/-- The ancestor-walk loop runs forever on a path not below the root when
the include set only contains paths below the root: no iteration budget
makes it finish. -/
theorem includeLoopFuel_diverges {S : List FsPath} {R : FsPath}
    (hS : ∀ s ∈ S, R <+: s) :
    ∀ (fuel : Nat) (p : FsPath), ¬ (R <+: p) → includeLoopFuel S R p fuel = none := by
  intro fuel
  induction fuel with
  | zero =>
    intro p hp
    have hpR : p ≠ R := fun h0 => hp (h0 ▸ List.prefix_refl p)
    simp [includeLoopFuel, hpR]
  | succ n ih =>
    intro p hp
    have hpR : p ≠ R := fun h0 => hp (h0 ▸ List.prefix_refl p)
    have hq : dirname p ∉ S :=
      fun hmem => hp ((hS _ hmem).trans (List.dropLast_prefix p))
    have hq2 : ¬ (R <+: dirname p) := fun hc => hp (hc.trans (List.dropLast_prefix p))
    simp [includeLoopFuel, hpR, hq, ih _ hq2]

/-- Claim C10: `should_include_path` terminates (within `p.length` loop
iterations) on every path whose repeated `dirname` chain reaches the root
— which covers every path the builder generates below the canonicalized
root; and on a path whose chain never reaches the root (one not below the
root, where `dirname` bottoms out at the fixpoint `/`), the ancestor-walk
loop never finishes under any iteration budget, given that the include set
is one resolved by `expand_include_paths` from nonempty glob matches (the
only sets a tree carries). -/
theorem should_include_path_termination :
    (∀ (S : List FsPath) (R p : FsPath), (∃ k, dirname^[k] p = R) →
      ∃ b, shouldIncludePathFuel S R p p.length = some b) ∧
    (∀ (glob : String → List (List String)) (R : FsPath) (pats? : Option (List String))
      (p : FsPath), (∀ pat m, m ∈ glob pat → m ≠ []) → (¬ ∃ k, dirname^[k] p = R) →
      ∀ fuel, includeLoopFuel (expand_include_paths glob R pats?) R p fuel = none) := by
  constructor
  · intro S R p hchain
    have hpre : R <+: p := chain_reaches_iff.mp hchain
    unfold shouldIncludePathFuel
    by_cases he : S = [] ∨ p ∈ S
    · exact ⟨true, by simp [he]⟩
    · rw [if_neg he]
      exact includeLoopFuel_total p.length p le_rfl hpre
  · intro glob R pats? p hglob hchain fuel
    have hp : ¬ (R <+: p) := fun hc => hchain (chain_reaches_iff.mpr hc)
    exact includeLoopFuel_diverges
      (fun s hs => (expand_member_under hglob hs).1) fuel p hp

/-- Witness for C10: below root `/r` the path `/r/x` reaches the root in
one `dirname` step and the walk finishes; the path `/` never reaches root
`/r` (it is `dirname`'s fixpoint), and with the include set resolved from
pattern `{"a"}` the loop is still running after any budget, e.g. 100. -/
theorem should_include_path_termination_witness :
    (∃ b, shouldIncludePathFuel [["r", "a"]] ["r"] ["r", "x"] 2 = some b) ∧
    includeLoopFuel
      (expand_include_paths (fun _ => [["a"]]) ["r"] (some ["a"])) ["r"] [] 100 = none := by
  constructor
  · exact should_include_path_termination.1 [["r", "a"]] ["r"] ["r", "x"] ⟨1, by decide⟩
  · refine should_include_path_termination.2 (fun _ => [["a"]]) ["r"] (some ["a"]) []
      ?_ ?_ 100
    · intro pat m hm
      simp only [List.mem_singleton] at hm
      subst hm
      decide
    · rintro ⟨k, hk⟩
      rw [Function.iterate_fixed rfl] at hk
      cases hk

/-! ### Claim C9 — directory size is the recursive sum over children -/

/-- Sum of sizes of a subdirectory list, as a `List` sum. -/
theorem DirNodeList.sizeSum_eq (fs : Filesystem) :
    ∀ l : DirNodeList, l.sizeSum fs = (l.toList.map (DirectoryNode.size fs)).sum
  | .nil => by simp [DirNodeList.sizeSum, DirNodeList.toList]
  | .cons d rest => by
    simp [DirNodeList.sizeSum, DirNodeList.toList, DirNodeList.sizeSum_eq fs rest]

mutual
/-- A directory node's size is the sum of the stat sizes of all file nodes
in its subtree. -/
theorem DirectoryNode.size_eq_total (fs : Filesystem) :
    ∀ d : DirectoryNode,
      DirectoryNode.size fs d = (d.filePaths.map (fun p => (getsize fs p).getD 0)).sum
  | .mk p dep subs fl => by
    simp only [DirectoryNode.size, DirectoryNode.filePaths, List.map_append, List.sum_append,
      DirNodeList.sizeSumFlat_eq_total fs subs, List.map_map]
    have : fl.map (FileNode.size fs) =
        fl.map ((fun q => (getsize fs q).getD 0) ∘ FileNode.path) := by
      apply List.map_congr_left
      intro f _
      rfl
    rw [this]
    omega
/-- List version of `DirectoryNode.size_eq_total`. -/
theorem DirNodeList.sizeSumFlat_eq_total (fs : Filesystem) :
    ∀ l : DirNodeList,
      DirNodeList.sizeSum fs l = (l.filePathsFlat.map (fun p => (getsize fs p).getD 0)).sum
  | .nil => by simp [DirNodeList.sizeSum, DirNodeList.filePathsFlat]
  | .cons d rest => by
    simp [DirNodeList.sizeSum, DirNodeList.filePathsFlat,
      DirectoryNode.size_eq_total fs d, DirNodeList.sizeSumFlat_eq_total fs rest]
end

/-- Claim C9: for every directory node (in particular every one of a fully
built tree), the size equals the sum of its child files' sizes plus the sum
of its child subdirectories' sizes — a value derived by this recursion over
the current children (and hence also equal to the flat sum over all
descendant file nodes), not a stored quantity: the node carries no size
field, and the same node yields different sizes against different
filesystem states without any rebuild. -/
theorem directoryNode_size_recursive_sum :
    (∀ (fs : Filesystem) (d : DirectoryNode),
      d.size fs = (d.files.map (FileNode.size fs)).sum +
        (d.subdirectories.toList.map (DirectoryNode.size fs)).sum) ∧
    (∀ (fs : Filesystem) (d : DirectoryNode),
      d.size fs = (d.filePaths.map (fun p => (getsize fs p).getD 0)).sum) := by
  constructor
  · intro fs d
    cases d with
    | mk p dep subs fl =>
      simp [DirectoryNode.size, DirectoryNode.files, DirectoryNode.subdirectories,
        DirNodeList.sizeSum_eq fs subs]
  · intro fs d
    exact DirectoryNode.size_eq_total fs d

/-! ### Lemmas about the traversal -/

/-- Unfolding of `walkSubdirs` at a directory entry. -/
theorem walkSubdirs_cons_dir {S : List FsPath} {R p : FsPath} {depth : Nat} {name : String}
    {cs : FSEntryList} {rest : FSEntryList} :
    walkSubdirs S R p depth (.cons (.dir name cs) rest) =
      (if frameRaises S R (should_include_path S R (p ++ [name])) (p ++ [name]) cs then
        .error .attributeError
      else
        match walkSubdirs S R (p ++ [name]) (depth + 1) cs with
        | .error e => .error e
        | .ok (grandNodes, visitedC) =>
          match walkSubdirs S R p depth rest with
          | .error e => .error e
          | .ok (nodes, visitedR) =>
            .ok ((if should_include_path S R (p ++ [name]) then
                    [DirectoryNode.mk (p ++ [name]) (depth + 1) (DirNodeList.ofList grandNodes)
                      (frameFiles S R (p ++ [name]) (depth + 2) cs)]
                  else []) ++ nodes,
                 ((p ++ [name]) :: visitedC) ++ visitedR)) := by
  simp only [walkSubdirs]

/-- The only error the traversal itself produces is the `AttributeError`. -/
theorem walkSubdirs_error_attr {S : List FsPath} {R : FsPath} :
    ∀ (l : FSEntryList) (p : FsPath) (depth : Nat) (e : BuildError),
      walkSubdirs S R p depth l = .error e → e = .attributeError
  | .nil, p, depth, e => by
    intro h
    simp [walkSubdirs] at h
  | .cons (.file n sz) rest, p, depth, e => by
    intro h
    simp only [walkSubdirs] at h
    exact walkSubdirs_error_attr rest p depth e h
  | .cons (.dir name cs) rest, p, depth, e => by
    intro h
    rw [walkSubdirs_cons_dir] at h
    by_cases hf : frameRaises S R (should_include_path S R (p ++ [name])) (p ++ [name]) cs
    · rw [if_pos hf] at h
      exact (Except.error.inj h).symm
    · rw [if_neg hf] at h
      cases hcs : walkSubdirs S R (p ++ [name]) (depth + 1) cs with
      | error e1 =>
        rw [hcs] at h
        simp only at h
        rw [walkSubdirs_error_attr cs (p ++ [name]) (depth + 1) e1 hcs] at h
        exact (Except.error.inj h).symm
      | ok gp =>
        obtain ⟨gn, tv⟩ := gp
        rw [hcs] at h
        simp only at h
        cases hrest : walkSubdirs S R p depth rest with
        | error e2 =>
          rw [hrest] at h
          simp only at h
          rw [walkSubdirs_error_attr rest p depth e2 hrest] at h
          exact (Except.error.inj h).symm
        | ok rp =>
          obtain ⟨ns, trs⟩ := rp
          rw [hrest] at h
          simp only at h
          cases h

/-- The traversal's trace is every directory below the frame's path, in
preorder, independent of the include set: `os.walk` descends into excluded
directories too. -/
theorem walkSubdirs_trace {S : List FsPath} {R : FsPath} :
    ∀ (l : FSEntryList) (p : FsPath) (depth : Nat) (nodes : List DirectoryNode)
      (tr : List FsPath), walkSubdirs S R p depth l = .ok (nodes, tr) →
      tr = FSEntryList.dirPathsUnder p l
  | .nil, p, depth, nodes, tr => by
    intro h
    simp only [walkSubdirs, Except.ok.injEq, Prod.mk.injEq] at h
    rw [← h.2]
    rfl
  | .cons (.file n sz) rest, p, depth, nodes, tr => by
    intro h
    simp only [walkSubdirs] at h
    have := walkSubdirs_trace rest p depth nodes tr h
    simpa [FSEntryList.dirPathsUnder] using this
  | .cons (.dir name cs) rest, p, depth, nodes, tr => by
    intro h
    rw [walkSubdirs_cons_dir] at h
    by_cases hf : frameRaises S R (should_include_path S R (p ++ [name])) (p ++ [name]) cs
    · rw [if_pos hf] at h
      cases h
    · rw [if_neg hf] at h
      cases hcs : walkSubdirs S R (p ++ [name]) (depth + 1) cs with
      | error e1 =>
        rw [hcs] at h
        simp only at h
        cases h
      | ok gp =>
        obtain ⟨gn, tv⟩ := gp
        rw [hcs] at h
        simp only at h
        cases hrest : walkSubdirs S R p depth rest with
        | error e2 =>
          rw [hrest] at h
          simp only at h
          cases h
        | ok rp =>
          obtain ⟨ns, trs⟩ := rp
          rw [hrest] at h
          simp only [Except.ok.injEq, Prod.mk.injEq] at h
          rw [← h.2]
          have h1 := walkSubdirs_trace cs (p ++ [name]) (depth + 1) gn tv hcs
          have h2 := walkSubdirs_trace rest p depth ns trs hrest
          simp [FSEntryList.dirPathsUnder, h1, h2]

/-- The condition under which the traversal cannot raise: every resolved
include path lying below the root either is a direct child of the root or
has an included parent directory.  (Include sets resolved from patterns
that only name direct children of the root — the application's usage —
satisfy this vacuously.) -/
def GoodIncludes (S : List FsPath) (R : FsPath) : Prop :=
  ∀ s ∈ S, R <+: s → dirname s ≠ R → should_include_path S R (dirname s) = true

/-- Under `GoodIncludes`, no frame of the walk raises: an included child of
an excluded directory would have to be an include-set member whose parent
is excluded, which `GoodIncludes` forbids. -/
theorem frameRaises_false_of_good {S : List FsPath} {R : FsPath} (hS : GoodIncludes S R)
    {p : FsPath} {name : String} {cs : FSEntryList} (hpre : R <+: p) :
    frameRaises S R (should_include_path S R (p ++ [name])) (p ++ [name]) cs = false := by
  unfold frameRaises
  cases hinc : should_include_path S R (p ++ [name]) with
  | true => simp
  | false =>
    simp only [Bool.not_false, Bool.true_and]
    rw [List.any_eq_false]
    intro n hn
    simp only [Bool.not_eq_true]
    cases htrue : should_include_path S R ((p ++ [name]) ++ [n]) with
    | false => rfl
    | true =>
      exfalso
      have hcp : R <+: p ++ [name] := hpre.trans ⟨[name], rfl⟩
      rcases (should_include_child_iff hcp).mp htrue with hmem | hparent
      · have hgpre : R <+: (p ++ [name]) ++ [n] := hcp.trans ⟨[n], rfl⟩
        have hdn : dirname ((p ++ [name]) ++ [n]) = p ++ [name] := by
          simp [dirname]
        have hne : dirname ((p ++ [name]) ++ [n]) ≠ R := by
          rw [hdn]
          intro h0
          have hlen := congrArg List.length h0
          have hRp := hpre.length_le
          simp only [List.length_append, List.length_singleton] at hlen
          omega
        have := hS _ hmem hgpre hne
        rw [hdn] at this
        rw [this] at hinc
        cases hinc
      · rw [hparent] at hinc
        cases hinc

/-- Under `GoodIncludes`, the traversal of any subtree below the root
completes. -/
theorem walkSubdirs_total {S : List FsPath} {R : FsPath} (hS : GoodIncludes S R) :
    ∀ (l : FSEntryList) (p : FsPath) (depth : Nat), R <+: p →
      ∃ nodes tr, walkSubdirs S R p depth l = .ok (nodes, tr)
  | .nil, p, depth, _ => ⟨[], [], rfl⟩
  | .cons (.file n sz) rest, p, depth, h => by
    obtain ⟨nodes, tr, hh⟩ := walkSubdirs_total hS rest p depth h
    exact ⟨nodes, tr, by simpa [walkSubdirs] using hh⟩
  | .cons (.dir name cs) rest, p, depth, h => by
    have hcp : R <+: p ++ [name] := h.trans ⟨[name], rfl⟩
    obtain ⟨gn, tv, hcs⟩ := walkSubdirs_total hS cs (p ++ [name]) (depth + 1) hcp
    obtain ⟨ns, trs, hrest⟩ := walkSubdirs_total hS rest p depth h
    refine ⟨(if should_include_path S R (p ++ [name]) then
        [DirectoryNode.mk (p ++ [name]) (depth + 1) (DirNodeList.ofList gn)
          (frameFiles S R (p ++ [name]) (depth + 2) cs)]
      else []) ++ ns, ((p ++ [name]) :: tv) ++ trs, ?_⟩
    rw [walkSubdirs_cons_dir, frameRaises_false_of_good hS h, hcs, hrest]
    simp only [Bool.false_eq_true, if_false]

/-- A completed walk yields a completed `populate_tree`. -/
theorem populate_tree_ok {S : List FsPath} {R : FsPath} {cs : FSEntryList}
    (h : ∃ nodes tr, walkSubdirs S R R 0 cs = .ok (nodes, tr)) :
    ∃ d tr, populate_tree S R cs = .ok (d, tr) := by
  obtain ⟨nodes, tr, hw⟩ := h
  exact ⟨_, _, by rw [populate_tree, hw]⟩

/-- Any error of `populate_tree` is the traversal's `AttributeError`. -/
theorem populate_tree_error {S : List FsPath} {R : FsPath} {cs : FSEntryList} {e : BuildError}
    (h : populate_tree S R cs = .error e) : e = .attributeError := by
  unfold populate_tree at h
  cases hw : walkSubdirs S R R 0 cs with
  | error e1 =>
    rw [hw] at h
    simp only [Except.error.injEq] at h
    rw [← h]
    exact walkSubdirs_error_attr cs R 0 e1 hw
  | ok pr =>
    obtain ⟨nodes, tr⟩ := pr
    rw [hw] at h
    simp at h

/-! ### Claim C1 — construction either fails at validation or completes -/

/-- Counterexample to claim C1: with a perfectly valid root directory
`/r` containing `d/e`, and the include pattern `"d/e"` (a glob that
matches the existing relative path `d/e`), construction starts the
traversal and then fails with `AttributeError`: the resolved include set is
`{/r/d/e}`, so `/r/d` is excluded and gets no node, but when `os.walk`
reaches `/r/d` its child `/r/d/e` passes `should_include_path` and
`parent.data.depth` dereferences the `None` returned by `get_node`.
The claim's only permitted failure is `NotADirectory` at root validation,
so this run refutes "once traversal begins it never fails". -/
theorem init_mid_traversal_failure :
    buildErr (FilesystemTree.init
      (some (.dir "r" (.ofList [.dir "d" (.ofList [.dir "e" .nil])])))
      ["r"] (some ["d/e"]) (fun pat => if pat = "d/e" then [["d", "e"]] else [])) =
      some .attributeError := by
  decide

/-- Claim C1 as amended: a nonexistent or non-directory root fails with
`NotADirectory` before anything else and a valid root never yields
`NotADirectory`; an explicitly empty include set fails with
`EmptyIncludeSet` before the traversal; and with a valid root, a non-empty
(or absent) include-pattern set whose resolved paths all have included
parents (`GoodIncludes`, satisfied in particular whenever every resolved
path is a direct child of the root), construction runs the traversal to
completion and returns a full tree.  (Without `GoodIncludes` the traversal
itself can fail with `AttributeError`, as the counterexample shows; no
partial tree is returned in any case.) -/
theorem init_complete_or_fail_at_validation :
    (∀ (root_path : FsPath) (include? : Option (List String))
      (glob : String → List (List String)),
      FilesystemTree.init none root_path include? glob = .error .notADirectory) ∧
    (∀ (n : String) (sz : Option Nat) (root_path : FsPath) (include? : Option (List String))
      (glob : String → List (List String)),
      FilesystemTree.init (some (.file n sz)) root_path include? glob =
        .error .notADirectory) ∧
    (∀ (n : String) (cs : FSEntryList) (root_path : FsPath) (include? : Option (List String))
      (glob : String → List (List String)),
      buildErr (FilesystemTree.init (some (.dir n cs)) root_path include? glob) ≠
        some .notADirectory) ∧
    (∀ (n : String) (cs : FSEntryList) (root_path : FsPath)
      (glob : String → List (List String)),
      FilesystemTree.init (some (.dir n cs)) root_path (some []) glob =
        .error .emptyIncludeSet) ∧
    (∀ (n : String) (cs : FSEntryList) (root_path : FsPath) (include? : Option (List String))
      (glob : String → List (List String)), include? ≠ some [] →
      GoodIncludes (expand_include_paths glob root_path include?) root_path →
      ∃ t tr, FilesystemTree.init (some (.dir n cs)) root_path include? glob = .ok (t, tr)) := by
  refine ⟨fun _ _ _ => rfl, fun _ _ _ _ _ => rfl, ?_, fun _ _ _ _ => rfl, ?_⟩
  · intro n cs root_path include? glob
    cases include? with
    | none =>
      simp only [FilesystemTree.init]
      cases hp : populate_tree (expand_include_paths glob root_path none) root_path cs with
      | error e =>
        rw [populate_tree_error hp]
        simp [buildErr]
      | ok pr =>
        obtain ⟨d, tr⟩ := pr
        simp [buildErr]
    | some pats =>
      cases pats with
      | nil => simp [FilesystemTree.init, buildErr]
      | cons pat pats =>
        simp only [FilesystemTree.init]
        cases hp : populate_tree (expand_include_paths glob root_path (some (pat :: pats)))
            root_path cs with
        | error e =>
          rw [populate_tree_error hp]
          simp [buildErr]
        | ok pr =>
          obtain ⟨d, tr⟩ := pr
          simp [buildErr]
  · intro n cs root_path include? glob hne hgood
    have hwalk := walkSubdirs_total hgood cs root_path 0 (List.prefix_refl root_path)
    obtain ⟨d, tr, hp⟩ := populate_tree_ok hwalk
    cases include? with
    | none =>
      exact ⟨⟨root_path, expand_include_paths glob root_path none, d⟩, tr,
        by simp only [FilesystemTree.init, hp]⟩
    | some pats =>
      cases pats with
      | nil => exact absurd rfl hne
      | cons pat pats =>
        exact ⟨⟨root_path, expand_include_paths glob root_path (some (pat :: pats)), d⟩, tr,
          by simp only [FilesystemTree.init, hp]⟩

/-- Witness for C1 at a concrete input: root `/r` with subdirectory `a`,
include pattern `{"a"}` resolving to `{/r/a}` (a direct child of the root,
so `GoodIncludes` holds), builds successfully. -/
theorem init_complete_or_fail_at_validation_witness :
    ∃ t tr, FilesystemTree.init (some (.dir "r" (.ofList [.dir "a" .nil])))
      ["r"] (some ["a"]) (fun pat => if pat = "a" then [["a"]] else []) = .ok (t, tr) :=
  init_complete_or_fail_at_validation.2.2.2.2 "r" (.ofList [.dir "a" .nil]) ["r"]
    (some ["a"]) (fun pat => if pat = "a" then [["a"]] else [])
    (by decide)
    (by
      intro s hs hpre hdn
      simp only [expand_include_paths, List.map, List.flatten, if_pos rfl] at hs
      simp only [List.append_nil, List.mem_singleton] at hs
      subst hs
      exact absurd rfl hdn)

/-- Two prefixes of the same list with one of them a single-segment
extension leave no room strictly in between. -/
theorem prefix_sandwich {p a : FsPath} {x : String} (h1 : p <+: a) (h2 : a <+: p ++ [x]) :
    a = p ∨ a = p ++ [x] := by
  by_cases he : a.length = p.length
  · exact Or.inl (h1.eq_of_length he.symm).symm
  · refine Or.inr (h2.eq_of_length ?_)
    have hl1 := h1.length_le
    have hl2 := h2.length_le
    simp only [List.length_append, List.length_singleton] at hl2 ⊢
    omega

/-- Membership in the file nodes created by a frame. -/
theorem frameFiles_mem {S : List FsPath} {R fp : FsPath} {fd : Nat} {l : FSEntryList}
    {f : FileNode} (h : f ∈ frameFiles S R fp fd l) :
    ∃ nm, nm ∈ fileNames l ∧ f.path = fp ++ [nm] ∧ f.depth = fd ∧
      should_include_path S R (fp ++ [nm]) = true := by
  unfold frameFiles at h
  obtain ⟨nm, hnm, hf⟩ := List.mem_filterMap.mp h
  by_cases hi : should_include_path S R (fp ++ [nm]) = true
  · rw [if_pos hi] at hf
    refine ⟨nm, hnm, ?_, ?_, hi⟩ <;> rw [← Option.some.inj hf]
  · rw [if_neg hi] at hf
    cases hf

/-- Node paths of a packaged node list. -/
theorem nodePathsFlat_ofList :
    ∀ lst : List DirectoryNode,
      (DirNodeList.ofList lst).nodePathsFlat = (lst.map DirectoryNode.nodePaths).flatten
  | [] => rfl
  | d :: rest => by
    simp [DirNodeList.ofList, DirNodeList.nodePathsFlat, nodePathsFlat_ofList rest]

/-- Invariant of the built nodes: every node path in a subtree hung below
frame `p` strictly extends `p`, and every ancestor of it strictly below
`p` (itself included) passes `should_include_path`. -/
theorem walkSubdirs_nodePaths {S : List FsPath} {R : FsPath} :
    ∀ (l : FSEntryList) (p : FsPath) (depth : Nat) (nodes : List DirectoryNode)
      (tr : List FsPath), R <+: p → walkSubdirs S R p depth l = .ok (nodes, tr) →
      ∀ d ∈ nodes, ∀ q ∈ d.nodePaths,
        p <+: q ∧ q ≠ p ∧
        ∀ a, a <+: q → p <+: a → a ≠ p → should_include_path S R a = true
  | .nil, p, depth, nodes, tr => by
    intro _ h d hd
    simp only [walkSubdirs, Except.ok.injEq, Prod.mk.injEq] at h
    rw [← h.1] at hd
    cases hd
  | .cons (.file n sz) rest, p, depth, nodes, tr => by
    intro hpre h
    simp only [walkSubdirs] at h
    exact walkSubdirs_nodePaths rest p depth nodes tr hpre h
  | .cons (.dir name cs) rest, p, depth, nodes, tr => by
    intro hpre h
    rw [walkSubdirs_cons_dir] at h
    by_cases hf : frameRaises S R (should_include_path S R (p ++ [name])) (p ++ [name]) cs
    · rw [if_pos hf] at h
      cases h
    · rw [if_neg hf] at h
      cases hcs : walkSubdirs S R (p ++ [name]) (depth + 1) cs with
      | error e1 =>
        rw [hcs] at h
        simp only at h
        cases h
      | ok gp =>
        obtain ⟨gn, tv⟩ := gp
        rw [hcs] at h
        simp only at h
        cases hrest : walkSubdirs S R p depth rest with
        | error e2 =>
          rw [hrest] at h
          simp only at h
          cases h
        | ok rp =>
          obtain ⟨ns, trs⟩ := rp
          rw [hrest] at h
          simp only [Except.ok.injEq, Prod.mk.injEq] at h
          intro d hd q hq
          rw [← h.1] at hd
          have hpn : p <+: p ++ [name] := ⟨[name], rfl⟩
          have hcpre : R <+: p ++ [name] := hpre.trans hpn
          have hlenp : p.length < (p ++ [name]).length := by
            simp
          rcases List.mem_append.mp hd with hd1 | hd2
          · -- the node created for this directory child, if it was included
            by_cases hinc : should_include_path S R (p ++ [name]) = true
            · rw [if_pos hinc] at hd1
              have hdeq : d = DirectoryNode.mk (p ++ [name]) (depth + 1)
                  (DirNodeList.ofList gn) (frameFiles S R (p ++ [name]) (depth + 2) cs) := by
                simpa using hd1
              rw [hdeq] at hq
              simp only [DirectoryNode.nodePaths, List.mem_cons, List.mem_append] at hq
              rcases hq with hq | hq1 | hq2
              · subst hq
                refine ⟨hpn, ?_, ?_⟩
                · intro h0
                  have := congrArg List.length h0
                  simp at this
                · intro a ha1 ha2 ha3
                  rcases prefix_sandwich ha2 ha1 with h0 | h0
                  · exact absurd h0 ha3
                  · rw [h0]
                    exact hinc
              · -- a path inside a grandchild subtree
                rw [nodePathsFlat_ofList] at hq1
                obtain ⟨ps, hps, hqin⟩ := List.mem_flatten.mp hq1
                obtain ⟨d', hd', hmap⟩ := List.mem_map.mp hps
                subst hmap
                obtain ⟨hq_pre, hq_ne, hq_anc⟩ :=
                  walkSubdirs_nodePaths cs (p ++ [name]) (depth + 1) gn tv hcpre hcs
                    d' hd' q hqin
                have hqlen : (p ++ [name]).length < q.length := by
                  have h1 := hq_pre.length_le
                  have h2 : (p ++ [name]).length ≠ q.length :=
                    fun h0 => hq_ne (hq_pre.eq_of_length h0).symm
                  omega
                refine ⟨hpn.trans hq_pre, ?_, ?_⟩
                · intro h0
                  have := congrArg List.length h0
                  simp only [List.length_append, List.length_singleton] at hqlen
                  omega
                · intro a ha1 ha2 ha3
                  by_cases hac : a.length ≤ (p ++ [name]).length
                  · have ha4 : a <+: p ++ [name] :=
                      List.prefix_of_prefix_length_le ha1 hq_pre hac
                    rcases prefix_sandwich ha2 ha4 with h0 | h0
                    · exact absurd h0 ha3
                    · rw [h0]
                      exact hinc
                  · have ha4 : (p ++ [name]) <+: a :=
                      List.prefix_of_prefix_length_le hq_pre ha1 (by omega)
                    refine hq_anc a ha1 ha4 ?_
                    intro h0
                    rw [h0] at hac
                    omega
              · -- a file node of this directory child
                obtain ⟨f, hfmem, hfq⟩ := List.mem_map.mp hq2
                obtain ⟨nm, _, hfp, _, hfinc⟩ := frameFiles_mem hfmem
                rw [hfp] at hfq
                subst hfq
                have hq_pre : p ++ [name] <+: (p ++ [name]) ++ [nm] := ⟨[nm], rfl⟩
                refine ⟨hpn.trans hq_pre, ?_, ?_⟩
                · intro h0
                  have := congrArg List.length h0
                  simp at this
                · intro a ha1 ha2 ha3
                  by_cases hac : a.length ≤ (p ++ [name]).length
                  · have ha4 : a <+: p ++ [name] :=
                      List.prefix_of_prefix_length_le ha1 hq_pre hac
                    rcases prefix_sandwich ha2 ha4 with h0 | h0
                    · exact absurd h0 ha3
                    · rw [h0]
                      exact hinc
                  · have ha4 : (p ++ [name]) <+: a :=
                      List.prefix_of_prefix_length_le hq_pre ha1 (by omega)
                    rcases prefix_sandwich ha4 ha1 with h0 | h0
                    · rw [h0] at hac
                      omega
                    · rw [h0]
                      exact hfinc
            · rw [if_neg hinc] at hd1
              cases hd1
          · exact walkSubdirs_nodePaths rest p depth ns trs hpre hrest d hd2 q hq

/-- Inversion of a successful construction. -/
theorem init_ok_inv {root? : Option FSEntry} {R : FsPath} {include? : Option (List String)}
    {glob : String → List (List String)} {t : FilesystemTree} {tr : List FsPath}
    (h : FilesystemTree.init root? R include? glob = .ok (t, tr)) :
    ∃ n cs nodes wtr,
      root? = some (.dir n cs) ∧
      walkSubdirs (expand_include_paths glob R include?) R R 0 cs = .ok (nodes, wtr) ∧
      t.root_path = R ∧
      t.include_paths = expand_include_paths glob R include? ∧
      t.rootNode = DirectoryNode.mk R 0 (DirNodeList.ofList nodes)
        (frameFiles (expand_include_paths glob R include?) R R 1 cs) ∧
      tr = R :: wtr := by
  cases root? with
  | none => cases h
  | some e =>
    cases e with
    | file n sz => cases h
    | dir n cs =>
      have hmain : ∃ d wtr0,
          populate_tree (expand_include_paths glob R include?) R cs = .ok (d, wtr0) ∧
          t = ⟨R, expand_include_paths glob R include?, d⟩ ∧ tr = wtr0 := by
        cases include? with
        | none =>
          simp only [FilesystemTree.init] at h
          cases hp : populate_tree (expand_include_paths glob R none) R cs with
          | error e1 =>
            rw [hp] at h
            cases h
          | ok pr =>
            obtain ⟨d, wtr0⟩ := pr
            rw [hp] at h
            simp only [Except.ok.injEq, Prod.mk.injEq] at h
            exact ⟨d, wtr0, rfl, h.1.symm, h.2.symm⟩
        | some pats =>
          cases pats with
          | nil => cases h
          | cons pat pats =>
            simp only [FilesystemTree.init] at h
            cases hp : populate_tree (expand_include_paths glob R (some (pat :: pats))) R cs with
            | error e1 =>
              rw [hp] at h
              cases h
            | ok pr =>
              obtain ⟨d, wtr0⟩ := pr
              rw [hp] at h
              simp only [Except.ok.injEq, Prod.mk.injEq] at h
              exact ⟨d, wtr0, rfl, h.1.symm, h.2.symm⟩
      obtain ⟨d, wtr0, hp, ht, htr⟩ := hmain
      unfold populate_tree at hp
      cases hw : walkSubdirs (expand_include_paths glob R include?) R R 0 cs with
      | error e1 =>
        rw [hw] at hp
        cases hp
      | ok pr =>
        obtain ⟨nodes, wtr⟩ := pr
        rw [hw] at hp
        simp only [Except.ok.injEq, Prod.mk.injEq] at hp
        refine ⟨n, cs, nodes, wtr, rfl, hw, ?_, ?_, ?_, ?_⟩
        · rw [ht]
        · rw [ht]
        · rw [ht]
          exact hp.1.symm
        · rw [htr, ← hp.2]

/-- Every node path of a built tree is the root or a strict descendant of
the root all of whose ancestors strictly below the root (itself included)
pass `should_include_path`. -/
theorem init_nodePaths {root? : Option FSEntry} {R : FsPath} {include? : Option (List String)}
    {glob : String → List (List String)} {t : FilesystemTree} {tr : List FsPath}
    (h : FilesystemTree.init root? R include? glob = .ok (t, tr)) :
    ∀ q ∈ t.rootNode.nodePaths, q = R ∨
      (R <+: q ∧ q ≠ R ∧
        ∀ a, a <+: q → R <+: a → a ≠ R → should_include_path t.include_paths R a = true) := by
  obtain ⟨n, cs, nodes, wtr, _, hw, _, hS, hroot, _⟩ := init_ok_inv h
  intro q hq
  rw [hroot] at hq
  simp only [DirectoryNode.nodePaths, List.mem_cons, List.mem_append] at hq
  rcases hq with hq | hq | hq
  · exact Or.inl hq
  · rw [nodePathsFlat_ofList] at hq
    obtain ⟨ps, hps, hqin⟩ := List.mem_flatten.mp hq
    obtain ⟨d', hd', hmap⟩ := List.mem_map.mp hps
    subst hmap
    obtain ⟨hq_pre, hq_ne, hq_anc⟩ :=
      walkSubdirs_nodePaths cs R 0 nodes wtr (List.prefix_refl R) hw d' hd' q hqin
    rw [hS]
    exact Or.inr ⟨hq_pre, hq_ne, hq_anc⟩
  · obtain ⟨f, hfmem, hfq⟩ := List.mem_map.mp hq
    obtain ⟨nm, _, hfp, _, hfinc⟩ := frameFiles_mem hfmem
    rw [hfp] at hfq
    subst hfq
    rw [hS]
    refine Or.inr ⟨⟨[nm], rfl⟩, ?_, ?_⟩
    · intro h0
      have := congrArg List.length h0
      simp at this
    · intro a ha1 ha2 ha3
      rcases prefix_sandwich ha2 ha1 with h0 | h0
      · exact absurd h0 ha3
      · rw [h0]
        exact hfinc

/-! ### Claim C2 — excluded entries get no nodes, but pruning the walk is another matter -/

/-- Counterexample to claim C2: with root `/r`, include pattern `{"a"}`
(so `/r/a` is included and `/r/d` is excluded), the build succeeds and
creates no node for `/r/d` — but the walk still visits `/r/d`: the
excluded directory appears in the `os.walk` trace, because `populate_tree`
never removes anything from `dir_names` and `os.walk` therefore descends
into excluded subtrees.  The claim's "its subtree is not visited or
descended into by the traversal" is false. -/
theorem walk_visits_excluded_subtree :
    should_include_path
      (buildIncludePaths (FilesystemTree.init
        (some (.dir "r" (.ofList [.dir "a" .nil,
          .dir "d" (.ofList [.file "x" (some 1)])])))
        ["r"] (some ["a"]) (fun pat => if pat = "a" then [["a"]] else [])))
      ["r"] ["r", "d"] = false ∧
    ["r", "d"] ∈ buildTrace (FilesystemTree.init
      (some (.dir "r" (.ofList [.dir "a" .nil,
        .dir "d" (.ofList [.file "x" (some 1)])])))
      ["r"] (some ["a"]) (fun pat => if pat = "a" then [["a"]] else [])) ∧
    ["r", "d"] ∉ buildNodePaths (FilesystemTree.init
      (some (.dir "r" (.ofList [.dir "a" .nil,
        .dir "d" (.ofList [.file "x" (some 1)])])))
      ["r"] (some ["a"]) (fun pat => if pat = "a" then [["a"]] else [])) := by
  refine ⟨by decide, by decide, by decide⟩

/-- Claim C2 as amended: in a successful build, an entry strictly below the
root for which `should_include_path` is false gets no node, and neither
does any path below it (the whole excluded subtree is absent from the
resulting tree); however the traversal itself is not pruned — the walk's
trace is exactly every directory of the subtree, excluded ones included,
independent of the include set. -/
theorem excluded_subtrees_unrepresented_but_walked :
    (∀ (root? : Option FSEntry) (R : FsPath) (include? : Option (List String))
      (glob : String → List (List String)) (t : FilesystemTree) (tr : List FsPath)
      (d q : FsPath),
      FilesystemTree.init root? R include? glob = .ok (t, tr) →
      R <+: d → d ≠ R → should_include_path t.include_paths R d = false →
      d <+: q → q ∉ t.rootNode.nodePaths) ∧
    (∀ (n : String) (cs : FSEntryList) (R : FsPath) (include? : Option (List String))
      (glob : String → List (List String)) (t : FilesystemTree) (tr : List FsPath),
      FilesystemTree.init (some (.dir n cs)) R include? glob = .ok (t, tr) →
      tr = R :: cs.dirPathsUnder R) := by
  constructor
  · intro root? R include? glob t tr d q hinit hRd hdR hexcl hdq hq
    rcases init_nodePaths hinit q hq with hq1 | ⟨_, _, hanc⟩
    · rw [hq1] at hdq
      have h3 : d = R := (hRd.eq_of_length (Nat.le_antisymm hRd.length_le hdq.length_le)).symm
      exact hdR h3
    · have := hanc d hdq hRd hdR
      rw [this] at hexcl
      cases hexcl
  · intro n cs R include? glob t tr hinit
    obtain ⟨n', cs', nodes, wtr, heq, hw, _, _, _, htr⟩ := init_ok_inv hinit
    injection Option.some.inj heq with hn hcs
    subst hcs
    rw [htr, walkSubdirs_trace cs R 0 nodes wtr hw]

/-- Witness for C2's amended theorem: in the counterexample filesystem the
excluded `/r/d` (and its file `/r/d/x`) are absent from the node paths,
and the trace is exactly root, `/r/a`, `/r/d`. -/
theorem excluded_subtrees_unrepresented_but_walked_witness :
    (["r", "d", "x"] ∉ buildNodePaths (FilesystemTree.init
      (some (.dir "r" (.ofList [.dir "a" .nil,
        .dir "d" (.ofList [.file "x" (some 1)])])))
      ["r"] (some ["a"]) (fun pat => if pat = "a" then [["a"]] else []))) ∧
    buildTrace (FilesystemTree.init
      (some (.dir "r" (.ofList [.dir "a" .nil,
        .dir "d" (.ofList [.file "x" (some 1)])])))
      ["r"] (some ["a"]) (fun pat => if pat = "a" then [["a"]] else [])) =
      [["r"], ["r", "a"], ["r", "d"]] := by
  constructor
  · intro hq
    cases hinit : FilesystemTree.init
        (some (.dir "r" (.ofList [.dir "a" .nil,
          .dir "d" (.ofList [.file "x" (some 1)])])))
        ["r"] (some ["a"]) (fun pat => if pat = "a" then [["a"]] else []) with
    | error e => rw [hinit] at hq; cases hq
    | ok pr =>
      obtain ⟨t, tr⟩ := pr
      rw [hinit] at hq
      refine excluded_subtrees_unrepresented_but_walked.1 _ ["r"] (some ["a"])
        (fun pat => if pat = "a" then [["a"]] else []) t tr ["r", "d"] ["r", "d", "x"]
        hinit (by decide) (by decide) ?_ (by decide) hq
      have ht : t.include_paths = [["r", "a"]] := by
        obtain ⟨_, _, _, _, _, _, _, hS, _, _⟩ := init_ok_inv hinit
        rw [hS]
        decide
      rw [ht]
      decide
  · cases hinit : FilesystemTree.init
        (some (.dir "r" (.ofList [.dir "a" .nil,
          .dir "d" (.ofList [.file "x" (some 1)])])))
        ["r"] (some ["a"]) (fun pat => if pat = "a" then [["a"]] else []) with
    | error e =>
      exfalso
      have : buildOk (FilesystemTree.init
          (some (.dir "r" (.ofList [.dir "a" .nil,
            .dir "d" (.ofList [.file "x" (some 1)])])))
          ["r"] (some ["a"]) (fun pat => if pat = "a" then [["a"]] else [])) = true := by
        decide
      rw [hinit] at this
      cases this
    | ok pr =>
      obtain ⟨t, tr⟩ := pr
      have := excluded_subtrees_unrepresented_but_walked.2 "r"
        (.ofList [.dir "a" .nil, .dir "d" (.ofList [.file "x" (some 1)])])
        ["r"] (some ["a"]) (fun pat => if pat = "a" then [["a"]] else []) t tr hinit
      simp only [buildTrace]
      rw [this]
      decide

/-! ### Lemmas about builds with an unrestricted include set -/

/-- Paths of the file nodes a frame creates, independent of the depth the
nodes carry. -/
def framePathsOf (S : List FsPath) (R fp : FsPath) (l : FSEntryList) : List FsPath :=
  (fileNames l).filterMap fun n =>
    if should_include_path S R (fp ++ [n]) then some (fp ++ [n]) else none

/-- The paths of a frame's file nodes are `framePathsOf`, whatever depth the
nodes were created at. -/
theorem frameFiles_map_path {S : List FsPath} {R fp : FsPath} {fd : Nat} {l : FSEntryList} :
    (frameFiles S R fp fd l).map FileNode.path = framePathsOf S R fp l := by
  unfold frameFiles framePathsOf
  rw [List.map_filterMap]
  apply List.filterMap_congr
  intro n _
  by_cases hi : should_include_path S R (fp ++ [n]) = true
  · simp [hi]
  · simp [hi]

/-- With an empty (unrestricted) include set the walk completes and the
node paths below a frame are exactly all entry paths below it. -/
theorem walkSubdirs_empty {R : FsPath} :
    ∀ (l : FSEntryList) (p : FsPath) (depth : Nat),
      ∃ nodes tr, walkSubdirs [] R p depth l = .ok (nodes, tr) ∧
        ∀ q, (q ∈ (nodes.map DirectoryNode.nodePaths).flatten ∨
              q ∈ framePathsOf [] R p l) ↔ q ∈ l.pathsUnder p
  | .nil, p, depth => by
    refine ⟨[], [], rfl, ?_⟩
    intro q
    simp [framePathsOf, fileNames, FSEntryList.toList, FSEntryList.pathsUnder]
  | .cons (.file n sz) rest, p, depth => by
    obtain ⟨nodes, tr, hok, hiff⟩ := walkSubdirs_empty rest p depth
    refine ⟨nodes, tr, by simpa [walkSubdirs] using hok, ?_⟩
    intro q
    have hfn : fileNames (.cons (.file n sz) rest) = n :: fileNames rest := by
      simp [fileNames, FSEntryList.toList]
    have hfp : framePathsOf [] R p (.cons (.file n sz) rest) =
        (p ++ [n]) :: framePathsOf [] R p rest := by
      unfold framePathsOf
      rw [hfn]
      simp [List.filterMap_cons, should_include_path_of_empty]
    rw [hfp]
    simp only [FSEntryList.pathsUnder, List.mem_cons]
    rw [← hiff q]
    tauto
  | .cons (.dir name cs) rest, p, depth => by
    obtain ⟨gn, tv, hok1, hiff1⟩ := walkSubdirs_empty cs (p ++ [name]) (depth + 1)
    obtain ⟨ns, trs, hok2, hiff2⟩ := walkSubdirs_empty rest p depth
    have hframe : frameRaises [] R (should_include_path [] R (p ++ [name])) (p ++ [name]) cs
        = false := by
      rw [should_include_path_of_empty]
      simp [frameRaises]
    refine ⟨DirectoryNode.mk (p ++ [name]) (depth + 1) (DirNodeList.ofList gn)
        (frameFiles [] R (p ++ [name]) (depth + 2) cs) :: ns,
      ((p ++ [name]) :: tv) ++ trs, ?_, ?_⟩
    · rw [walkSubdirs_cons_dir, hframe, hok1, hok2]
      simp [should_include_path_of_empty]
    · intro q
      have hfn : fileNames (.cons (.dir name cs) rest) = fileNames rest := by
        simp [fileNames, FSEntryList.toList]
      have hfp : framePathsOf [] R p (.cons (.dir name cs) rest) =
          framePathsOf [] R p rest := by
        unfold framePathsOf
        rw [hfn]
      rw [hfp]
      simp only [List.map_cons, List.flatten_cons, List.mem_append,
        DirectoryNode.nodePaths, List.mem_cons, FSEntryList.pathsUnder,
        nodePathsFlat_ofList, frameFiles_map_path]
      rw [← hiff1 q, ← hiff2 q]
      tauto

/-- Expansion of patterns that all match nothing is empty. -/
theorem expand_nil {glob : String → List (List String)} {R : FsPath} {pats : List String}
    (h : ∀ pat ∈ pats, glob pat = []) :
    expand_include_paths glob R (some pats) = [] := by
  simp only [expand_include_paths]
  induction pats with
  | nil => rfl
  | cons pat pats ih =>
    have h1 : glob pat = [] := h pat (List.mem_cons_self pat pats)
    simp only [List.map_cons, h1, List.map_nil, List.flatten_cons, List.nil_append]
    exact ih fun q hq => h q (List.mem_cons_of_mem pat hq)

/-! ### Claim C8 — empty versus absent include sets -/

/-- Claim C8: an explicitly empty include set fails with `EmptyIncludeSet`
(before any traversal — the error is raised in `__init__` right after root
validation); supplying no include set resolves to the empty set, for which
`should_include_path` is true on every path, so every entry of the
filesystem gets a node; and a non-empty pattern set expanding via glob to
zero paths is not an error — the build completes. -/
theorem include_set_edge_cases :
    (∀ (n : String) (cs : FSEntryList) (R : FsPath) (glob : String → List (List String)),
      FilesystemTree.init (some (.dir n cs)) R (some []) glob = .error .emptyIncludeSet) ∧
    (∀ (glob : String → List (List String)) (R p : FsPath),
      should_include_path (expand_include_paths glob R none) R p = true) ∧
    (∀ (n : String) (cs : FSEntryList) (R : FsPath) (glob : String → List (List String)),
      ∃ t tr, FilesystemTree.init (some (.dir n cs)) R none glob = .ok (t, tr) ∧
        ∀ q, q ∈ t.rootNode.nodePaths ↔ (q = R ∨ q ∈ cs.pathsUnder R)) ∧
    (∀ (n : String) (cs : FSEntryList) (R : FsPath) (glob : String → List (List String))
      (pats : List String), pats ≠ [] → (∀ pat ∈ pats, glob pat = []) →
      ∃ t tr, FilesystemTree.init (some (.dir n cs)) R (some pats) glob = .ok (t, tr)) := by
  refine ⟨fun _ _ _ _ => rfl, ?_, ?_, ?_⟩
  · intro glob R p
    exact should_include_path_of_empty
  · intro n cs R glob
    obtain ⟨nodes, tr, hok, hiff⟩ := walkSubdirs_empty (R := R) cs R 0
    refine ⟨⟨R, [], DirectoryNode.mk R 0 (DirNodeList.ofList nodes)
        (frameFiles [] R R 1 cs)⟩, R :: tr, ?_, ?_⟩
    · have hE : expand_include_paths glob R none = [] := rfl
      simp only [FilesystemTree.init, populate_tree, hE, hok]
    · intro q
      simp only [DirectoryNode.nodePaths, List.mem_cons, List.mem_append,
        nodePathsFlat_ofList, frameFiles_map_path]
      rw [← hiff q]
  · intro n cs R glob pats hne hglob
    have hS : expand_include_paths glob R (some pats) = [] := expand_nil hglob
    obtain ⟨nodes, tr, hok, _⟩ := walkSubdirs_empty (R := R) cs R 0
    have hok' : walkSubdirs (expand_include_paths glob R (some pats)) R R 0 cs =
        .ok (nodes, tr) := by
      rw [hS]
      exact hok
    cases pats with
    | nil => exact absurd rfl hne
    | cons pat pats' =>
      exact ⟨⟨R, expand_include_paths glob R (some (pat :: pats')),
          DirectoryNode.mk R 0 (DirNodeList.ofList nodes)
            (frameFiles (expand_include_paths glob R (some (pat :: pats'))) R R 1 cs)⟩,
        R :: tr, by simp only [FilesystemTree.init, populate_tree, hok']⟩

/-- Witness for C8: with no include set, the build over `/r` containing one
file `x` succeeds and its tree holds exactly the root and `/r/x`; with the
non-empty pattern set `{"zzz"}` matching nothing, the build also
succeeds. -/
theorem include_set_edge_cases_witness :
    (∃ t tr, FilesystemTree.init (some (.dir "r" (.ofList [.file "x" (some 1)])))
      ["r"] none (fun _ => []) = .ok (t, tr)) ∧
    (∃ t tr, FilesystemTree.init (some (.dir "r" (.ofList [.file "x" (some 1)])))
      ["r"] (some ["zzz"]) (fun _ => []) = .ok (t, tr)) := by
  constructor
  · obtain ⟨t, tr, hok, -⟩ :=
      include_set_edge_cases.2.2.1 "r" (.ofList [.file "x" (some 1)]) ["r"] (fun _ => [])
    exact ⟨t, tr, hok⟩
  · exact include_set_edge_cases.2.2.2 "r" (.ofList [.file "x" (some 1)]) ["r"]
      (fun _ => []) ["zzz"] (by decide) (fun pat _ => rfl)

/-! ### Claim C3 — rendering reads the filesystem, not a size snapshot -/

mutual
/-- A directory node's size depends on the filesystem state only through
the stat results of the node's file paths. -/
theorem DirectoryNode.size_congr (fs fs' : Filesystem) :
    ∀ d : DirectoryNode, (∀ q ∈ d.filePaths, getsize fs q = getsize fs' q) →
      d.size fs = d.size fs'
  | .mk p dep subs fl => by
    intro hq
    simp only [DirectoryNode.filePaths] at hq
    simp only [DirectoryNode.size]
    rw [DirNodeList.sizeSum_congr fs fs' subs
      (fun q hq0 => hq q (List.mem_append.mpr (Or.inl hq0)))]
    have : fl.map (FileNode.size fs) = fl.map (FileNode.size fs') := by
      apply List.map_congr_left
      intro f hf
      have := hq f.path (List.mem_append.mpr (Or.inr (List.mem_map_of_mem FileNode.path hf)))
      simp [FileNode.size, this]
    rw [this]
/-- List version of `DirectoryNode.size_congr`. -/
theorem DirNodeList.sizeSum_congr (fs fs' : Filesystem) :
    ∀ l : DirNodeList, (∀ q ∈ l.filePathsFlat, getsize fs q = getsize fs' q) →
      l.sizeSum fs = l.sizeSum fs'
  | .nil => by
    intro _
    rfl
  | .cons d rest => by
    intro hq
    simp only [DirNodeList.filePathsFlat] at hq
    simp only [DirNodeList.sizeSum]
    rw [DirectoryNode.size_congr fs fs' d
        (fun q hq0 => hq q (List.mem_append.mpr (Or.inl hq0))),
      DirNodeList.sizeSum_congr fs fs' rest
        (fun q hq0 => hq q (List.mem_append.mpr (Or.inr hq0)))]
end

mutual
/-- The rendered subtree depends on the filesystem state only through the
stat results of the subtree's file paths. -/
theorem DirectoryNode.subtreeLines_congr (fs fs' : Filesystem) (dep minS : Int) :
    ∀ d : DirectoryNode, (∀ q ∈ d.filePaths, getsize fs q = getsize fs' q) →
      d.subtreeLines fs dep minS = d.subtreeLines fs' dep minS
  | .mk p dep0 subs fl => by
    intro hq
    simp only [DirectoryNode.filePaths] at hq
    simp only [DirectoryNode.subtreeLines]
    rw [DirNodeList.childBlocks_congr fs fs' dep minS subs
      (fun q hq0 => hq q (List.mem_append.mpr (Or.inl hq0)))]
    have : (fl.filterMap fun f =>
        if showFilter dep minS f.depth (f.size fs) then
          some (f.size fs, [(f.path, f.depth, f.size fs)])
        else none) = (fl.filterMap fun f =>
        if showFilter dep minS f.depth (f.size fs') then
          some (f.size fs', [(f.path, f.depth, f.size fs')])
        else none) := by
      apply List.filterMap_congr
      intro f hf
      have hsz := hq f.path (List.mem_append.mpr (Or.inr (List.mem_map_of_mem FileNode.path hf)))
      have : f.size fs = f.size fs' := by
        simp [FileNode.size, hsz]
      rw [this]
    rw [this]
/-- List version of `DirectoryNode.subtreeLines_congr`. -/
theorem DirNodeList.childBlocks_congr (fs fs' : Filesystem) (dep minS : Int) :
    ∀ l : DirNodeList, (∀ q ∈ l.filePathsFlat, getsize fs q = getsize fs' q) →
      l.childBlocks fs dep minS = l.childBlocks fs' dep minS
  | .nil => by
    intro _
    rfl
  | .cons d rest => by
    intro hq
    simp only [DirNodeList.filePathsFlat] at hq
    have hd : ∀ q ∈ d.filePaths, getsize fs q = getsize fs' q :=
      fun q hq0 => hq q (List.mem_append.mpr (Or.inl hq0))
    simp only [DirNodeList.childBlocks]
    rw [DirectoryNode.size_congr fs fs' d hd,
      DirectoryNode.subtreeLines_congr fs fs' dep minS d hd,
      DirNodeList.childBlocks_congr fs fs' dep minS rest
        (fun q hq0 => hq q (List.mem_append.mpr (Or.inr hq0)))]
end

/-- Counterexample to claim C3: the same built tree (built with the file
`/r/x` at size 100), rendered twice with identical depth and size filters,
produces different output when the file's on-disk size has changed to 200
in between — because `show`'s size key and filters call `FileNode.size`,
which stats the filesystem at render time; no sizes are captured in the
tree. -/
theorem show_rereads_filesystem :
    buildShow (FilesystemTree.init (some (.dir "r" (.ofList [.file "x" (some 100)])))
        ["r"] none (fun _ => []))
      ⟨["r"], some (.dir "r" (.ofList [.file "x" (some 100)]))⟩ 0 none ≠
    buildShow (FilesystemTree.init (some (.dir "r" (.ofList [.file "x" (some 100)])))
        ["r"] none (fun _ => []))
      ⟨["r"], some (.dir "r" (.ofList [.file "x" (some 200)]))⟩ 0 none := by
  decide

/-- Claim C3 as amended: `show` performs no filesystem writes but does read
file sizes from the filesystem at render time; its output depends on the
current filesystem state only through the stat results of the tree's file
paths, so two renders of the same unchanged tree give identical output
whenever those stat results are unchanged.  (The converse does not hold —
a changed stat result need not change the output — and is not claimed;
that a stat change can change the output is the counterexample.) -/
theorem show_depends_only_on_file_stats :
    ∀ (t : FilesystemTree) (fs fs' : Filesystem) (depth : Int) (min_size? : Option Int),
      (∀ q ∈ t.rootNode.filePaths, getsize fs q = getsize fs' q) →
      t.show fs depth min_size? = t.show fs' depth min_size? := by
  intro t fs fs' depth min_size? hq
  simp only [FilesystemTree.show]
  rw [DirectoryNode.size_congr fs fs' t.rootNode hq,
    DirectoryNode.subtreeLines_congr fs fs' depth _ t.rootNode hq]

/-- Witness for C3's amended theorem: rendering the one-file tree against
two filesystem states that agree on the file's stat result gives equal
output. -/
theorem show_depends_only_on_file_stats_witness :
    FilesystemTree.show ⟨["r"], [], DirectoryNode.mk ["r"] 0 .nil [⟨["r", "x"], 1⟩]⟩
      ⟨["r"], some (.dir "r" (.ofList [.file "x" (some 100)]))⟩ 0 none =
    FilesystemTree.show ⟨["r"], [], DirectoryNode.mk ["r"] 0 .nil [⟨["r", "x"], 1⟩]⟩
      ⟨["r"], some (.dir "r" (.ofList [.file "x" (some 100), .file "y" (some 5)]))⟩ 0 none :=
  show_depends_only_on_file_stats
    ⟨["r"], [], DirectoryNode.mk ["r"] 0 .nil [⟨["r", "x"], 1⟩]⟩
    ⟨["r"], some (.dir "r" (.ofList [.file "x" (some 100)]))⟩
    ⟨["r"], some (.dir "r" (.ofList [.file "x" (some 100), .file "y" (some 5)]))⟩
    0 none (by decide)

/-! ### Lemmas about rendering -/

/-- Membership through stable insertion. -/
theorem mem_sortKeyInsert {α : Type} {key : α → Nat} {a x : α} :
    ∀ l : List α, (x ∈ sortKeyInsert key a l ↔ x = a ∨ x ∈ l)
  | [] => by simp [sortKeyInsert]
  | b :: bs => by
    simp only [sortKeyInsert]
    by_cases hk : key a > key b
    · simp [hk]
    · rw [if_neg hk]
      simp only [List.mem_cons, mem_sortKeyInsert bs]
      tauto

/-- Sorting the sibling blocks does not change which blocks occur. -/
theorem mem_sortDesc {α : Type} {key : α → Nat} {x : α} (l : List α) :
    x ∈ sortDesc key l ↔ x ∈ l := by
  suffices h : ∀ (l : List α) (acc : List α),
      (x ∈ l.foldl (fun acc a => sortKeyInsert key a acc) acc ↔ x ∈ acc ∨ x ∈ l) by
    rw [sortDesc, h l []]
    simp
  intro l
  induction l with
  | nil => simp
  | cons a as ih =>
    intro acc
    simp only [List.foldl_cons, ih (sortKeyInsert key a acc), mem_sortKeyInsert acc,
      List.mem_cons]
    tauto

/-- Destructuring (and rebuilding) membership in a rendered subtree: a line
below a directory node comes from a block of one of its filter-passing
children. -/
theorem mem_subtreeLines_iff {fs : Filesystem} {dep minS : Int} {p : FsPath} {dep0 : Nat}
    {subs : DirNodeList} {fl : List FileNode} {e : ShowLine} :
    e ∈ DirectoryNode.subtreeLines fs dep minS (.mk p dep0 subs fl) ↔
      ∃ b, (b ∈ subs.childBlocks fs dep minS ∨
            b ∈ fl.filterMap (fun f =>
              if showFilter dep minS f.depth (f.size fs) then
                some (f.size fs, [(f.path, f.depth, f.size fs)])
              else none)) ∧ e ∈ b.2 := by
  simp only [DirectoryNode.subtreeLines, List.mem_flatten, List.mem_map]
  constructor
  · rintro ⟨ls, ⟨b, hb, hmap⟩, hels⟩
    subst hmap
    rw [mem_sortDesc] at hb
    exact ⟨b, List.mem_append.mp hb, hels⟩
  · rintro ⟨b, hb, he⟩
    exact ⟨b.2, ⟨b, (mem_sortDesc _).mpr (List.mem_append.mpr hb), rfl⟩, he⟩

mutual
/-- Every line of a rendered subtree passes the installed filter (claim C7's
"only if" for non-root nodes). -/
theorem subtreeLines_pass (fs : Filesystem) (dep minS : Int) :
    ∀ (d : DirectoryNode) (e : ShowLine), e ∈ d.subtreeLines fs dep minS →
      showFilter dep minS e.2.1 e.2.2 = true
  | .mk p dep0 subs fl, e => by
    intro he
    rcases mem_subtreeLines_iff.mp he with ⟨b, hb | hb, hels⟩
    · exact childBlocks_pass fs dep minS subs b hb e hels
    · obtain ⟨f, hf, hfb⟩ := List.mem_filterMap.mp hb
      by_cases hfil : showFilter dep minS f.depth (f.size fs) = true
      · rw [if_pos hfil] at hfb
        rw [← Option.some.inj hfb] at hels
        simp only [List.mem_singleton] at hels
        subst hels
        exact hfil
      · rw [if_neg hfil] at hfb
        cases hfb
/-- List version of `subtreeLines_pass`. -/
theorem childBlocks_pass (fs : Filesystem) (dep minS : Int) :
    ∀ (l : DirNodeList) (b : Nat × List ShowLine), b ∈ l.childBlocks fs dep minS →
      ∀ e ∈ b.2, showFilter dep minS e.2.1 e.2.2 = true
  | .nil, b => by
    intro hb
    simp [DirNodeList.childBlocks] at hb
  | .cons d rest, b => by
    intro hb e he
    simp only [DirNodeList.childBlocks] at hb
    rcases List.mem_append.mp hb with hb1 | hb2
    · by_cases hfil : showFilter dep minS d.depth (d.size fs) = true
      · rw [if_pos hfil] at hb1
        simp only [List.mem_singleton] at hb1
        subst hb1
        rcases List.mem_cons.mp he with he1 | he2
        · subst he1
          exact hfil
        · exact subtreeLines_pass fs dep minS d e he2
      · rw [if_neg hfil] at hb1
        cases hb1
    · exact childBlocks_pass fs dep minS rest b hb2 e he
end

mutual
/-- Well-formedness of a built subtree: each child's path extends its
parent's by one segment and each child's depth is one more than its
parent's, recursively. -/
def DirectoryNode.WF : DirectoryNode → Prop
  | .mk p dep subs fl =>
    (∀ f ∈ fl, (∃ nm, f.path = p ++ [nm]) ∧ f.depth = dep + 1) ∧
    subs.WFchildren p dep
/-- Well-formedness of a list of children of a node at `parentPath` and
`parentDepth`. -/
def DirNodeList.WFchildren (parentPath : FsPath) (parentDepth : Nat) : DirNodeList → Prop
  | .nil => True
  | .cons d rest =>
    ((∃ nm, d.path = parentPath ++ [nm]) ∧ d.depth = parentDepth + 1 ∧ d.WF) ∧
    rest.WFchildren parentPath parentDepth
end

/-- Packaging well-formed children. -/
theorem WFchildren_ofList {parentPath : FsPath} {parentDepth : Nat} :
    ∀ lst : List DirectoryNode,
      (∀ d ∈ lst, (∃ nm, d.path = parentPath ++ [nm]) ∧ d.depth = parentDepth + 1 ∧ d.WF) →
      DirNodeList.WFchildren parentPath parentDepth (DirNodeList.ofList lst)
  | [], _ => trivial
  | d :: rest, h => by
    refine ⟨h d (List.mem_cons_self d rest), ?_⟩
    exact WFchildren_ofList rest fun d' hd' => h d' (List.mem_cons_of_mem d hd')

/-- The walk produces well-formed nodes. -/
theorem walkSubdirs_WF {S : List FsPath} {R : FsPath} :
    ∀ (l : FSEntryList) (p : FsPath) (depth : Nat) (nodes : List DirectoryNode)
      (tr : List FsPath), walkSubdirs S R p depth l = .ok (nodes, tr) →
      ∀ d ∈ nodes, (∃ nm, d.path = p ++ [nm]) ∧ d.depth = depth + 1 ∧ d.WF
  | .nil, p, depth, nodes, tr => by
    intro h d hd
    simp only [walkSubdirs, Except.ok.injEq, Prod.mk.injEq] at h
    rw [← h.1] at hd
    cases hd
  | .cons (.file n sz) rest, p, depth, nodes, tr => by
    intro h
    simp only [walkSubdirs] at h
    exact walkSubdirs_WF rest p depth nodes tr h
  | .cons (.dir name cs) rest, p, depth, nodes, tr => by
    intro h
    rw [walkSubdirs_cons_dir] at h
    by_cases hf : frameRaises S R (should_include_path S R (p ++ [name])) (p ++ [name]) cs
    · rw [if_pos hf] at h
      cases h
    · rw [if_neg hf] at h
      cases hcs : walkSubdirs S R (p ++ [name]) (depth + 1) cs with
      | error e1 =>
        rw [hcs] at h
        simp only at h
        cases h
      | ok gp =>
        obtain ⟨gn, tv⟩ := gp
        rw [hcs] at h
        simp only at h
        cases hrest : walkSubdirs S R p depth rest with
        | error e2 =>
          rw [hrest] at h
          simp only at h
          cases h
        | ok rp =>
          obtain ⟨ns, trs⟩ := rp
          rw [hrest] at h
          simp only [Except.ok.injEq, Prod.mk.injEq] at h
          intro d hd
          rw [← h.1] at hd
          rcases List.mem_append.mp hd with hd1 | hd2
          · by_cases hinc : should_include_path S R (p ++ [name]) = true
            · rw [if_pos hinc] at hd1
              simp only [List.mem_singleton] at hd1
              subst hd1
              refine ⟨⟨name, rfl⟩, rfl, ?_, ?_⟩
              · intro f hf0
                obtain ⟨nm, _, hfp, hfd, _⟩ := frameFiles_mem hf0
                exact ⟨⟨nm, hfp⟩, hfd⟩
              · exact WFchildren_ofList gn
                  (walkSubdirs_WF cs (p ++ [name]) (depth + 1) gn tv hcs)
            · rw [if_neg hinc] at hd1
              cases hd1
          · exact walkSubdirs_WF rest p depth ns trs hrest d hd2

/-- A successful build's root node is well-formed. -/
theorem init_WF {root? : Option FSEntry} {R : FsPath} {include? : Option (List String)}
    {glob : String → List (List String)} {t : FilesystemTree} {tr : List FsPath}
    (h : FilesystemTree.init root? R include? glob = .ok (t, tr)) :
    t.rootNode.WF ∧ t.rootNode.path = R ∧ t.rootNode.depth = 0 := by
  obtain ⟨n, cs, nodes, wtr, _, hw, _, _, hroot, _⟩ := init_ok_inv h
  rw [hroot]
  refine ⟨⟨?_, ?_⟩, rfl, rfl⟩
  · intro f hf
    obtain ⟨nm, _, hfp, hfd, _⟩ := frameFiles_mem hf
    exact ⟨⟨nm, hfp⟩, hfd⟩
  · exact WFchildren_ofList nodes (walkSubdirs_WF cs R 0 nodes wtr hw)

mutual
/-- Geometry of rendered lines: every line below a well-formed node lies
strictly below the node's path, and its stored depth equals the node's
depth plus the number of extra segments. -/
theorem subtreeLines_geom (fs : Filesystem) (dep minS : Int) :
    ∀ d : DirectoryNode, d.WF → ∀ e ∈ d.subtreeLines fs dep minS,
      d.path <+: e.1 ∧ d.path.length < e.1.length ∧
      e.2.1 = d.depth + (e.1.length - d.path.length)
  | .mk p dep0 subs fl => by
    intro hwf e he
    obtain ⟨hfl, hsubs⟩ := hwf
    simp only [DirectoryNode.path, DirectoryNode.depth]
    rcases mem_subtreeLines_iff.mp he with ⟨b, hb | hb, hels⟩
    · exact childBlocks_geom fs dep minS subs p dep0 hsubs b hb e hels
    · obtain ⟨f, hf, hfb⟩ := List.mem_filterMap.mp hb
      by_cases hfil : showFilter dep minS f.depth (f.size fs) = true
      · rw [if_pos hfil] at hfb
        rw [← Option.some.inj hfb] at hels
        simp only [List.mem_singleton] at hels
        subst hels
        obtain ⟨⟨nm, hfp⟩, hfd⟩ := hfl f hf
        refine ⟨?_, ?_, ?_⟩
        · rw [hfp]
          exact ⟨[nm], rfl⟩
        · rw [hfp]
          simp
        · rw [hfp, hfd]
          simp
      · rw [if_neg hfil] at hfb
        cases hfb
/-- List version of `subtreeLines_geom`. -/
theorem childBlocks_geom (fs : Filesystem) (dep minS : Int) :
    ∀ (l : DirNodeList) (p : FsPath) (dep0 : Nat), l.WFchildren p dep0 →
      ∀ b ∈ l.childBlocks fs dep minS, ∀ e ∈ b.2,
        p <+: e.1 ∧ p.length < e.1.length ∧ e.2.1 = dep0 + (e.1.length - p.length)
  | .nil, p, dep0 => by
    intro _ b hb
    simp [DirNodeList.childBlocks] at hb
  | .cons d rest, p, dep0 => by
    intro hwf b hb e he
    obtain ⟨⟨⟨nm, hdp⟩, hdd, hdwf⟩, hrest⟩ := hwf
    simp only [DirNodeList.childBlocks] at hb
    rcases List.mem_append.mp hb with hb1 | hb2
    · by_cases hfil : showFilter dep minS d.depth (d.size fs) = true
      · rw [if_pos hfil] at hb1
        simp only [List.mem_singleton] at hb1
        subst hb1
        rcases List.mem_cons.mp he with he1 | he2
        · subst he1
          refine ⟨?_, ?_, ?_⟩
          · rw [hdp]
            exact ⟨[nm], rfl⟩
          · rw [hdp]
            simp
          · rw [hdp, hdd]
            simp
        · obtain ⟨h1, h2, h3⟩ := subtreeLines_geom fs dep minS d hdwf e he2
          rw [hdp] at h1 h2 h3
          have hplen : (p ++ [nm]).length = p.length + 1 := by simp
          have hppn : p <+: p ++ [nm] := ⟨[nm], rfl⟩
          refine ⟨hppn.trans h1, by omega, ?_⟩
          rw [h3, hdd]
          omega
      · rw [if_neg hfil] at hb1
        cases hb1
    · exact childBlocks_geom fs dep minS rest p dep0 hrest b hb2 e he
end

mutual
/-- Ancestors of rendered lines are themselves rendered: any path strictly
between a well-formed node and one of its rendered lines is either the
node's own path or the path of another rendered line of the same subtree.
This is the contrapositive shape of "descendants of a hidden node are not
visited": a line can only appear through an unbroken chain of
filter-passing ancestors. -/
theorem subtreeLines_ancestors (fs : Filesystem) (dep minS : Int) :
    ∀ d : DirectoryNode, d.WF → ∀ e ∈ d.subtreeLines fs dep minS, ∀ b : FsPath,
      b <+: e.1 → d.path <+: b → b ≠ e.1 →
      (b = d.path ∨ ∃ e' ∈ d.subtreeLines fs dep minS, e'.1 = b)
  | .mk p dep0 subs fl => by
    intro hwf e he b hb1 hb2 hb3
    obtain ⟨hfl, hsubs⟩ := hwf
    simp only [DirectoryNode.path] at hb2 ⊢
    rcases mem_subtreeLines_iff.mp he with ⟨blk, hblk | hblk, hels⟩
    · rcases childBlocks_ancestors fs dep minS subs p dep0 hsubs blk hblk e hels b
          hb1 hb2 hb3 with h0 | ⟨e', he', heb⟩
      · exact Or.inl h0
      · exact Or.inr ⟨e', mem_subtreeLines_iff.mpr ⟨blk, Or.inl hblk, he'⟩, heb⟩
    · obtain ⟨f, hf, hfb⟩ := List.mem_filterMap.mp hblk
      by_cases hfil : showFilter dep minS f.depth (f.size fs) = true
      · rw [if_pos hfil] at hfb
        rw [← Option.some.inj hfb] at hels
        simp only [List.mem_singleton] at hels
        subst hels
        obtain ⟨⟨nm, hfp⟩, _⟩ := hfl f hf
        rw [hfp] at hb1 hb3
        rcases prefix_sandwich hb2 hb1 with h0 | h0
        · exact Or.inl h0
        · exact absurd h0 hb3
      · rw [if_neg hfil] at hfb
        cases hfb
/-- List version of `subtreeLines_ancestors`. -/
theorem childBlocks_ancestors (fs : Filesystem) (dep minS : Int) :
    ∀ (l : DirNodeList) (p : FsPath) (dep0 : Nat), l.WFchildren p dep0 →
      ∀ blk ∈ l.childBlocks fs dep minS, ∀ e ∈ blk.2, ∀ b : FsPath,
        b <+: e.1 → p <+: b → b ≠ e.1 →
        (b = p ∨ ∃ e' ∈ blk.2, e'.1 = b)
  | .nil, p, dep0 => by
    intro _ blk hblk
    simp [DirNodeList.childBlocks] at hblk
  | .cons d rest, p, dep0 => by
    intro hwf blk hblk e he b hb1 hb2 hb3
    obtain ⟨⟨⟨nm, hdp⟩, hdd, hdwf⟩, hrest⟩ := hwf
    simp only [DirNodeList.childBlocks] at hblk
    rcases List.mem_append.mp hblk with hblk1 | hblk2
    · by_cases hfil : showFilter dep minS d.depth (d.size fs) = true
      · rw [if_pos hfil] at hblk1
        simp only [List.mem_singleton] at hblk1
        subst hblk1
        rcases List.mem_cons.mp he with he1 | he2
        · subst he1
          rw [hdp] at hb1 hb3
          rcases prefix_sandwich hb2 hb1 with h0 | h0
          · exact Or.inl h0
          · exact absurd h0 hb3
        · obtain ⟨hd1, hd2, _⟩ := subtreeLines_geom fs dep minS d hdwf e he2
          by_cases hbl : b.length ≤ d.path.length
          · have hbd : b <+: d.path := List.prefix_of_prefix_length_le hb1 hd1 hbl
            rw [hdp] at hbd
            rcases prefix_sandwich hb2 hbd with h0 | h0
            · exact Or.inl h0
            · refine Or.inr ⟨(d.path, d.depth, d.size fs), List.mem_cons_self _ _, ?_⟩
              rw [hdp]
              exact h0.symm
          · have hdb : d.path <+: b := List.prefix_of_prefix_length_le hd1 hb1 (by omega)
            have hbne : b ≠ d.path := by
              intro h0
              rw [h0] at hbl
              omega
            rcases subtreeLines_ancestors fs dep minS d hdwf e he2 b hb1 hdb hb3
                with h0 | ⟨e', he', heb⟩
            · exact absurd h0 hbne
            · exact Or.inr ⟨e', List.mem_cons_of_mem _ he', heb⟩
      · rw [if_neg hfil] at hblk1
        cases hblk1
    · exact childBlocks_ancestors fs dep minS rest p dep0 hrest blk hblk2 e he b hb1 hb2 hb3
end

/-! ### Claim C7 — what rendering emits -/

/-- Counterexample to claim C7: rendering a tree whose root has size 0 with
`min_size = 5` still emits the root's line, although the root fails the
size filter (`0 >= 5` is false): `treelib` prints the top node before
consulting the filter, so "a node is emitted only if ... node.size >=
minSize" is false for the root. -/
theorem show_emits_failing_root :
    buildShow (FilesystemTree.init (some (.dir "r" .nil)) ["r"] none (fun _ => []))
      ⟨["r"], some (.dir "r" .nil)⟩ 0 (some 5) = [(["r"], 0, 0)] ∧
    showFilter 0 (min_size_spec (some 5)) 0 0 = false := by
  exact ⟨by decide, by decide⟩

/-- Claim C7 as amended: every emitted node other than the root passes both
filters (depth at most `maxDepth` when `maxDepth > 0`, size at least the
resolved minimum) — the root's line alone is emitted unconditionally, and
when the root itself fails a filter the output is exactly its single line;
a node hidden by either filter has none of its subtree emitted — every
emitted line's strict ancestors below the root are themselves emitted
lines — and rendering a built tree with `maxDepth = 1` emits only the root
and direct children, never any grandchild, even one whose parent was
filtered out by size. -/
theorem show_filter_semantics :
    (∀ (t : FilesystemTree) (fs : Filesystem) (dep : Int) (m? : Option Int) (e : ShowLine),
      e ∈ (t.show fs dep m?).drop 1 →
      showFilter dep (min_size_spec m?) e.2.1 e.2.2 = true) ∧
    (∀ (t : FilesystemTree) (fs : Filesystem) (dep : Int) (m? : Option Int),
      showFilter dep (min_size_spec m?) t.rootNode.depth (t.rootNode.size fs) = false →
      t.show fs dep m? = [(t.rootNode.path, t.rootNode.depth, t.rootNode.size fs)]) ∧
    (∀ (root? : Option FSEntry) (R : FsPath) (include? : Option (List String))
      (glob : String → List (List String)) (t : FilesystemTree) (tr : List FsPath)
      (fs : Filesystem) (dep : Int) (m? : Option Int),
      FilesystemTree.init root? R include? glob = .ok (t, tr) →
      ∀ e ∈ t.show fs dep m?, ∀ b : FsPath, b <+: e.1 → R <+: b → b ≠ e.1 →
        ∃ e' ∈ t.show fs dep m?, e'.1 = b) ∧
    (∀ (root? : Option FSEntry) (R : FsPath) (include? : Option (List String))
      (glob : String → List (List String)) (t : FilesystemTree) (tr : List FsPath)
      (fs : Filesystem) (m? : Option Int),
      FilesystemTree.init root? R include? glob = .ok (t, tr) →
      ∀ e ∈ t.show fs 1 m?, e.1.length ≤ R.length + 1) := by
  refine ⟨?_, ?_, ?_, ?_⟩
  · intro t fs dep m? e he
    simp only [FilesystemTree.show, List.drop_succ_cons, List.drop_zero] at he
    by_cases hroot : showFilter dep (min_size_spec m?) t.rootNode.depth
        (t.rootNode.size fs) = true
    · rw [if_pos hroot] at he
      exact subtreeLines_pass fs dep (min_size_spec m?) t.rootNode e he
    · rw [if_neg hroot] at he
      cases he
  · intro t fs dep m? hroot
    simp only [FilesystemTree.show, hroot]
    simp
  · intro root? R include? glob t tr fs dep m? hinit e he b hb1 hb2 hb3
    obtain ⟨hwf, hpath, hdepth⟩ := init_WF hinit
    simp only [FilesystemTree.show, List.mem_cons] at he
    rcases he with he | he
    · exfalso
      rw [he] at hb3 hb1
      simp only [hpath] at hb1 hb3
      exact hb3 (hb1.eq_of_length (Nat.le_antisymm hb1.length_le hb2.length_le))
    · by_cases hroot : showFilter dep (min_size_spec m?) t.rootNode.depth
          (t.rootNode.size fs) = true
      · rw [if_pos hroot] at he
        have hb2' : t.rootNode.path <+: b := by
          rw [hpath]
          exact hb2
        rcases subtreeLines_ancestors fs dep (min_size_spec m?) t.rootNode hwf e he b
            hb1 hb2' hb3 with h0 | ⟨e', he', heb⟩
        · refine ⟨(t.rootNode.path, t.rootNode.depth, t.rootNode.size fs), ?_, ?_⟩
          · simp [FilesystemTree.show]
          · rw [h0]
        · refine ⟨e', ?_, heb⟩
          simp only [FilesystemTree.show, List.mem_cons]
          right
          rw [if_pos hroot]
          exact he'
      · rw [if_neg hroot] at he
        cases he
  · intro root? R include? glob t tr fs m? hinit e he
    obtain ⟨hwf, hpath, hdepth⟩ := init_WF hinit
    simp only [FilesystemTree.show, List.mem_cons] at he
    rcases he with he | he
    · rw [he, hpath]
      simp
    · by_cases hroot : showFilter 1 (min_size_spec m?) t.rootNode.depth
          (t.rootNode.size fs) = true
      · rw [if_pos hroot] at he
        have hpass := subtreeLines_pass fs 1 (min_size_spec m?) t.rootNode e he
        obtain ⟨_, hlen, hdep⟩ := subtreeLines_geom fs 1 (min_size_spec m?) t.rootNode hwf e he
        rw [hpath] at hlen hdep
        rw [hdepth] at hdep
        simp only [showFilter, Bool.and_eq_true, decide_eq_true_eq] at hpass
        have hd1 : (e.2.1 : Int) ≤ 1 := by
          have := hpass.1
          simpa using this
        have hd2 : e.2.1 ≤ 1 := by exact_mod_cast hd1
        omega
      · rw [if_neg hroot] at he
        cases he

/-- Witness for C7's amended theorem at a concrete build: the tree over
`/r/a/x` rendered with `maxDepth = 1` emits the direct child `/r/a` (whose
line passes both filters) and nothing deeper. -/
theorem show_filter_semantics_witness :
    showFilter 1 (min_size_spec none) 1 5 = true := by
  cases hinit : FilesystemTree.init
      (some (.dir "r" (.ofList [.dir "a" (.ofList [.file "x" (some 5)])])))
      ["r"] none (fun _ => []) with
  | error e =>
    exfalso
    have hok : buildOk (FilesystemTree.init
        (some (.dir "r" (.ofList [.dir "a" (.ofList [.file "x" (some 5)])])))
        ["r"] none (fun _ => [])) = true := by decide
    rw [hinit] at hok
    cases hok
  | ok pr =>
    obtain ⟨t, tr⟩ := pr
    refine show_filter_semantics.1 t
      ⟨["r"], some (.dir "r" (.ofList [.dir "a" (.ofList [.file "x" (some 5)])]))⟩
      1 none (["r", "a"], 1, 5) ?_
    have hb : t.show ⟨["r"], some (.dir "r" (.ofList [.dir "a" (.ofList [.file "x" (some 5)])]))⟩
        1 none = buildShow (FilesystemTree.init
          (some (.dir "r" (.ofList [.dir "a" (.ofList [.file "x" (some 5)])])))
          ["r"] none (fun _ => []))
        ⟨["r"], some (.dir "r" (.ofList [.dir "a" (.ofList [.file "x" (some 5)])]))⟩ 1 none := by
      rw [hinit]
      rfl
    rw [hb]
    decide
